import Mathlib

/-!
Verification of the docling-service document pipeline.

Shallow embedding of:
* `main.py`     — `clean_text_content`, the sentence chunker inside
  `extract_chunks_from_json`, the picture collection loop, `process_document`;
* `vector_service.py` — `generate_document_id` (with a full MD5), `store_chunks`;
* `db_worker.py` — `get_next_job`, `update_job_status`, `process_job`.

Python strings are modelled as `List Char` (one element per code point, so
Python `len` is `List.length`); machine-independent `Nat` arithmetic with
explicit `% 2^32` is used for the MD5 words.
-/

/- ============================================================ -/
/- Python primitives shared by several components               -/
/- ============================================================ -/

/-- The characters Python `str.strip()` removes (Unicode whitespace, as tested
by `str.isspace`). -/
def isPyWS (c : Char) : Bool :=
  decide ((0x09 ≤ c.toNat ∧ c.toNat ≤ 0x0D) ∨ c.toNat = 0x20 ∨
    (0x1C ≤ c.toNat ∧ c.toNat ≤ 0x1F) ∨ c.toNat = 0x85 ∨ c.toNat = 0xA0 ∨
    c.toNat = 0x1680 ∨ (0x2000 ≤ c.toNat ∧ c.toNat ≤ 0x200A) ∨
    c.toNat = 0x2028 ∨ c.toNat = 0x2029 ∨ c.toNat = 0x202F ∨
    c.toNat = 0x205F ∨ c.toNat = 0x3000)

/-- Python `s.strip()`: drop leading and trailing whitespace. -/
def pyStrip (l : List Char) : List Char :=
  ((l.dropWhile isPyWS).reverse.dropWhile isPyWS).reverse

/- ============================================================ -/
/- Text normalizer: clean_text_content (main.py:263-328)        -/
/- ============================================================ -/

/-- `[\uD800-\uDFFF]` (main.py:276).  A Lean `Char` is a Unicode scalar value
and can never lie in this range, which matches the code's purpose: the stage
only removes malformed data that a well-formed string cannot contain. -/
def isSurrogate (c : Char) : Bool :=
  decide (0xD800 ≤ c.toNat ∧ c.toNat ≤ 0xDFFF)

/-- `[\x00-\x08\x0B\x0C\x0E-\x1F\x7F]` (main.py:284): control characters other
than tab and newline. -/
def isRemovedControl (c : Char) : Bool :=
  decide (c.toNat ≤ 0x08 ∨ c.toNat = 0x0B ∨ c.toNat = 0x0C ∨
    (0x0E ≤ c.toNat ∧ c.toNat ≤ 0x1F) ∨ c.toNat = 0x7F)

/-- `[\\uE000-\\uF8FF]` (main.py:287): Private Use Area. -/
def isPrivateUse (c : Char) : Bool :=
  decide (0xE000 ≤ c.toNat ∧ c.toNat ≤ 0xF8FF)

/-- `[\\uFFF0-\\uFFFF]` (main.py:288): Specials block. -/
def isSpecials (c : Char) : Bool :=
  decide (0xFFF0 ≤ c.toNat ∧ c.toNat ≤ 0xFFFF)

/-- Match a literal character sequence at the head, returning the remainder. -/
def matchLit : List Char → List Char → Option (List Char)
  | [], l => some l
  | _ :: _, [] => none
  | p :: ps, c :: cs => if p = c then matchLit ps cs else none

/-- Match `<!--\s*image\s*-->` at the head of the list.  The `\s*` parts are
deterministic maximal whitespace runs because whitespace never equals the
letter or hyphen that must follow. -/
def matchImageAt (l : List Char) : Option (List Char) :=
  (matchLit "<!--".data l).bind fun r1 =>
  (matchLit "image".data (r1.dropWhile isPyWS)).bind fun r2 =>
  matchLit "-->".data (r2.dropWhile isPyWS)

/-- Match `<!--\s*formula-not-decoded\s*-->` at the head of the list. -/
def matchFormulaAt (l : List Char) : Option (List Char) :=
  (matchLit "<!--".data l).bind fun r1 =>
  (matchLit "formula-not-decoded".data (r1.dropWhile isPyWS)).bind fun r2 =>
  matchLit "-->".data (r2.dropWhile isPyWS)

/-- Body of `<!--[^>]*-->` after the opening `<!--`: scan forward over
non-`>` characters; succeed exactly when the first `>` is immediately
preceded by `--` (gredy `[^>]*` followed by the literal `-->` forces the
match's `>` to be the first `>` of the remainder). -/
def commentBody : List Char → Option (List Char)
  | [] => none
  | '-' :: '-' :: '>' :: rest => some rest
  | '>' :: _ => none
  | _ :: rest => commentBody rest

/-- Match `<!--[^>]*-->` at the head of the list. -/
def matchCommentAt (l : List Char) : Option (List Char) :=
  (matchLit "<!--".data l).bind commentBody

/-- `re.sub(r'<!--\s*image\s*-->', '[Image]', text)` (main.py:279): leftmost,
non-overlapping matches; the fuel (initialised to the input length, an upper
bound on the scan steps) only makes the recursion structural. -/
def subImageFuel : Nat → List Char → List Char
  | 0, l => l
  | _ + 1, [] => []
  | fuel + 1, c :: rest =>
    match matchImageAt (c :: rest) with
    | some r => "[Image]".data ++ subImageFuel fuel r
    | none => c :: subImageFuel fuel rest

def subImage (l : List Char) : List Char := subImageFuel l.length l

/-- `re.sub(r'<!--\s*formula-not-decoded\s*-->', '[Formula]', text)`
(main.py:280). -/
def subFormulaFuel : Nat → List Char → List Char
  | 0, l => l
  | _ + 1, [] => []
  | fuel + 1, c :: rest =>
    match matchFormulaAt (c :: rest) with
    | some r => "[Formula]".data ++ subFormulaFuel fuel r
    | none => c :: subFormulaFuel fuel rest

def subFormula (l : List Char) : List Char := subFormulaFuel l.length l

/-- `re.sub(r'<!--[^>]*-->', '', text)` (main.py:281). -/
def removeCommentsFuel : Nat → List Char → List Char
  | 0, l => l
  | _ + 1, [] => []
  | fuel + 1, c :: rest =>
    match matchCommentAt (c :: rest) with
    | some r => removeCommentsFuel fuel r
    | none => c :: removeCommentsFuel fuel rest

def removeComments (l : List Char) : List Char := removeCommentsFuel l.length l

/-- The `unicode_replacements` table (main.py:291-307), in source order. -/
def replacementTable : List (Char × List Char) :=
  [('ҧ', ['p']), ('ሶ', ['s']), ('→', ['-', '>']), ('←', ['<', '-']),
   ('≈', ['~', '=']), ('≠', ['!', '=']), ('≤', ['<', '=']), ('≥', ['>', '=']),
   ('°', "deg".data), ('θ', "theta".data), ('ρ', "rho".data),
   ('μ', "mu".data), ('π', "pi".data), ('Δ', "Delta".data),
   ('σ', "sigma".data)]

/-- `text.replace(k, v)` for a single-character pattern `k`. -/
def replaceChar (k : Char) (v : List Char) (l : List Char) : List Char :=
  l.flatMap fun c => if c = k then v else [c]

/-- The sequential `text.replace` loop over the table (main.py:309-310). -/
def applyReplacements (l : List Char) : List Char :=
  replacementTable.foldl (fun acc kv => replaceChar kv.1 kv.2 acc) l

/-- `text.replace('\r\n', '\n')` (main.py:313): left-to-right,
non-overlapping. -/
def replaceCRLF : List Char → List Char
  | [] => []
  | '\r' :: '\n' :: rest2 => '\n' :: replaceCRLF rest2
  | c :: rest => c :: replaceCRLF rest

/-- `.replace('\r', '\n')` (main.py:313). -/
def mapCRtoLF (l : List Char) : List Char :=
  l.map fun c => if c = '\r' then '\n' else c

/-- `re.sub(r' +', ' ', text)` (main.py:316): every maximal run of spaces
becomes a single space (the fold keeps the last space of each run). -/
def collapseSpaces (l : List Char) : List Char :=
  l.foldr (fun c acc => if c = ' ' ∧ acc.head? = some ' ' then acc else c :: acc) []

/-- State machine for `re.sub(r'\n +', '\n', text)` (main.py:317): the flag
records whether the scan sits in the space run following a newline. -/
def stripAfterNLAux : Bool → List Char → List Char
  | _, [] => []
  | afterNL, c :: rest =>
    if afterNL ∧ c = ' ' then stripAfterNLAux true rest
    else c :: stripAfterNLAux (c == '\n') rest

def stripAfterNL (l : List Char) : List Char := stripAfterNLAux false l

/-- `re.sub(r' +\n', '\n', text)` (main.py:318): a space directly followed by
(a space run ending in) a newline is dropped. -/
def stripBeforeNL (l : List Char) : List Char :=
  l.foldr (fun c acc => if c = ' ' ∧ acc.head? = some '\n' then acc else c :: acc) []

/-- `re.sub(r'\n{3,}', '\n\n', text)` (main.py:319): every maximal run of at
least three newlines becomes exactly two. -/
def collapseNewlines (l : List Char) : List Char :=
  l.foldr (fun c acc =>
    if c = '\n' ∧ acc.head? = some '\n' ∧ acc.tail.head? = some '\n' then acc
    else c :: acc) []

/-- `clean_text_content` (main.py:263-328), stage by stage in source order.
The final `text.encode('utf-8', 'replace').decode('utf-8', 'replace')`
(main.py:323) is the identity on sequences of Unicode scalar values (lone
surrogates were removed by the first stage), so it contributes no separate
stage here. -/
def cleanStages (l : List Char) : List Char :=
  let t1 := pyStrip l
  let t2 := t1.filter fun c => !(isSurrogate c)
  let t3 := subImage t2
  let t4 := subFormula t3
  let t5 := removeComments t4
  let t6 := t5.filter fun c => !(isRemovedControl c)
  let t7 := t6.filter fun c => !(isPrivateUse c)
  let t8 := t7.filter fun c => !(isSpecials c)
  let t9 := applyReplacements t8
  let t10 := mapCRtoLF (replaceCRLF t9)
  let t11 := collapseSpaces t10
  let t12 := stripAfterNL t11
  let t13 := stripBeforeNL t12
  let t14 := collapseNewlines t13
  t14.filter fun c => !(c == '\uFFFD')

/-- `clean_text_content(text)` including the `if not text: return ""` guard
(main.py:265-266). -/
def cleanTextContent (s : String) : String :=
  if s.data = [] then "" else String.mk (cleanStages s.data)

/- ------------------------------------------------------------ -/
/- C4 support lemmas                                            -/
/- ------------------------------------------------------------ -/

/-- Printable ASCII other than `<` (and other than DEL): on such characters
every stage of the normalizer except `strip` and space collapsing is the
identity. -/
def plainChar (c : Char) : Prop := 0x20 ≤ c.toNat ∧ c.toNat ≤ 0x7E ∧ c ≠ '<'

instance (c : Char) : Decidable (plainChar c) := by
  unfold plainChar
  infer_instance

theorem mem_of_mem_dropWhile {p : Char → Bool} {l : List Char} {x : Char}
    (h : x ∈ l.dropWhile p) : x ∈ l := by
  induction l with
  | nil => simp at h
  | cons c rest ih =>
    rw [List.dropWhile_cons] at h
    by_cases hc : p c
    · rw [if_pos hc] at h
      exact List.mem_cons_of_mem _ (ih h)
    · rwa [if_neg hc] at h

theorem mem_of_mem_pyStrip {l : List Char} {x : Char} (h : x ∈ pyStrip l) :
    x ∈ l := by
  unfold pyStrip at h
  rw [List.mem_reverse] at h
  have h2 := mem_of_mem_dropWhile h
  rw [List.mem_reverse] at h2
  exact mem_of_mem_dropWhile h2

theorem dropWhile_head_false {p : Char → Bool} {l : List Char} {c : Char}
    (h : (l.dropWhile p).head? = some c) : p c = false := by
  induction l with
  | nil => simp at h
  | cons a rest ih =>
    rw [List.dropWhile_cons] at h
    by_cases ha : p a
    · rw [if_pos ha] at h
      exact ih h
    · rw [if_neg ha] at h
      simp at h
      rw [← h]
      simpa using ha

theorem dropWhile_id_of_head {p : Char → Bool} {l : List Char}
    (h : ∀ c, l.head? = some c → p c = false) : l.dropWhile p = l := by
  cases l with
  | nil => rfl
  | cons c rest =>
    rw [List.dropWhile_cons, if_neg]
    simp [h c rfl]

theorem getLast?_cons_of_ne_nil {c : Char} {l : List Char} (h : l ≠ []) :
    (c :: l).getLast? = l.getLast? := by
  cases l with
  | nil => exact absurd rfl h
  | cons d rest => exact List.getLast?_cons_cons

theorem dropWhile_getLast? {p : Char → Bool} {l : List Char}
    (h : l.dropWhile p ≠ []) : (l.dropWhile p).getLast? = l.getLast? := by
  induction l with
  | nil => simp at h
  | cons c rest ih =>
    rw [List.dropWhile_cons] at h ⊢
    by_cases hc : p c
    · rw [if_pos hc] at h ⊢
      have hrest : rest ≠ [] := by
        intro he
        rw [he] at h
        exact h rfl
      rw [ih h, getLast?_cons_of_ne_nil hrest]
    · rw [if_neg hc]

theorem pyStrip_head_not_ws {l : List Char} {c : Char}
    (h : (pyStrip l).head? = some c) : isPyWS c = false := by
  unfold pyStrip at h
  rw [List.head?_reverse] at h
  have hne : (l.dropWhile isPyWS).reverse.dropWhile isPyWS ≠ [] := by
    intro he
    rw [he] at h
    simp at h
  rw [dropWhile_getLast? hne, List.getLast?_reverse] at h
  exact dropWhile_head_false h

theorem pyStrip_getLast_not_ws {l : List Char} {c : Char}
    (h : (pyStrip l).getLast? = some c) : isPyWS c = false := by
  unfold pyStrip at h
  rw [List.getLast?_reverse] at h
  exact dropWhile_head_false h

theorem pyStrip_id {l : List Char}
    (hh : ∀ c, l.head? = some c → isPyWS c = false)
    (hl : ∀ c, l.getLast? = some c → isPyWS c = false) : pyStrip l = l := by
  unfold pyStrip
  rw [dropWhile_id_of_head hh]
  rw [dropWhile_id_of_head (fun c hc => hl c (by rwa [List.head?_reverse] at hc))]
  exact List.reverse_reverse l

/- Stage-identity lemmas for plain printable input. -/

theorem filter_eq_self_of_mem {p : Char → Bool} {l : List Char}
    (h : ∀ c ∈ l, p c = true) : l.filter p = l :=
  List.filter_eq_self.mpr h

theorem matchLit_open_none {c : Char} {rest : List Char} (hc : c ≠ '<') :
    matchLit "<!--".data (c :: rest) = none := by
  have h4 : "<!--".data = ['<', '!', '-', '-'] := rfl
  rw [h4]
  simp only [matchLit, if_neg (Ne.symm hc)]

theorem matchImageAt_cons_none {c : Char} {rest : List Char} (hc : c ≠ '<') :
    matchImageAt (c :: rest) = none := by
  unfold matchImageAt
  rw [matchLit_open_none hc]
  rfl

theorem matchFormulaAt_cons_none {c : Char} {rest : List Char} (hc : c ≠ '<') :
    matchFormulaAt (c :: rest) = none := by
  unfold matchFormulaAt
  rw [matchLit_open_none hc]
  rfl

theorem matchCommentAt_cons_none {c : Char} {rest : List Char} (hc : c ≠ '<') :
    matchCommentAt (c :: rest) = none := by
  unfold matchCommentAt
  rw [matchLit_open_none hc]
  rfl

theorem subImageFuel_id : ∀ (fuel : Nat) (l : List Char),
    (∀ c ∈ l, c ≠ '<') → subImageFuel fuel l = l := by
  intro fuel
  induction fuel with
  | zero => intro l _; rfl
  | succ n ih =>
    intro l hl
    cases l with
    | nil => rfl
    | cons c rest =>
      have hc : c ≠ '<' := hl c (List.mem_cons_self c rest)
      simp only [subImageFuel, matchImageAt_cons_none hc]
      exact congrArg (c :: ·) (ih rest fun d hd => hl d (List.mem_cons_of_mem _ hd))

theorem subImage_id {l : List Char} (h : ∀ c ∈ l, c ≠ '<') : subImage l = l :=
  subImageFuel_id l.length l h

theorem subFormulaFuel_id : ∀ (fuel : Nat) (l : List Char),
    (∀ c ∈ l, c ≠ '<') → subFormulaFuel fuel l = l := by
  intro fuel
  induction fuel with
  | zero => intro l _; rfl
  | succ n ih =>
    intro l hl
    cases l with
    | nil => rfl
    | cons c rest =>
      have hc : c ≠ '<' := hl c (List.mem_cons_self c rest)
      simp only [subFormulaFuel, matchFormulaAt_cons_none hc]
      exact congrArg (c :: ·) (ih rest fun d hd => hl d (List.mem_cons_of_mem _ hd))

theorem subFormula_id {l : List Char} (h : ∀ c ∈ l, c ≠ '<') :
    subFormula l = l :=
  subFormulaFuel_id l.length l h

theorem removeCommentsFuel_id : ∀ (fuel : Nat) (l : List Char),
    (∀ c ∈ l, c ≠ '<') → removeCommentsFuel fuel l = l := by
  intro fuel
  induction fuel with
  | zero => intro l _; rfl
  | succ n ih =>
    intro l hl
    cases l with
    | nil => rfl
    | cons c rest =>
      have hc : c ≠ '<' := hl c (List.mem_cons_self c rest)
      simp only [removeCommentsFuel, matchCommentAt_cons_none hc]
      exact congrArg (c :: ·) (ih rest fun d hd => hl d (List.mem_cons_of_mem _ hd))

theorem removeComments_id {l : List Char} (h : ∀ c ∈ l, c ≠ '<') :
    removeComments l = l :=
  removeCommentsFuel_id l.length l h

theorem replaceChar_id {k : Char} {v : List Char} {l : List Char}
    (h : ∀ c ∈ l, c ≠ k) : replaceChar k v l = l := by
  induction l with
  | nil => rfl
  | cons c rest ih =>
    unfold replaceChar at ih ⊢
    rw [List.flatMap_cons, if_neg (h c (List.mem_cons_self c rest))]
    rw [ih fun d hd => h d (List.mem_cons_of_mem _ hd)]
    rfl

theorem foldl_replace_id : ∀ (tbl : List (Char × List Char)) (l : List Char),
    (∀ kv ∈ tbl, 0x7E < kv.1.toNat) → (∀ c ∈ l, c.toNat ≤ 0x7E) →
    tbl.foldl (fun acc kv => replaceChar kv.1 kv.2 acc) l = l := by
  intro tbl
  induction tbl with
  | nil => intro l _ _; rfl
  | cons kv rest ih =>
    intro l htbl hl
    rw [List.foldl_cons]
    rw [replaceChar_id fun c hc => by
      intro he
      have h1 := hl c hc
      have h2 := htbl kv (List.mem_cons_self kv rest)
      rw [he] at h1
      omega]
    exact ih l (fun x hx => htbl x (List.mem_cons_of_mem _ hx)) hl

theorem applyReplacements_id {l : List Char} (h : ∀ c ∈ l, c.toNat ≤ 0x7E) :
    applyReplacements l = l :=
  foldl_replace_id replacementTable l (by decide) h

theorem replaceCRLF_id {l : List Char} (h : ∀ c ∈ l, c ≠ '\r') :
    replaceCRLF l = l := by
  induction l with
  | nil => rfl
  | cons c rest ih =>
    have hc : c ≠ '\r' := h c (List.mem_cons_self c rest)
    have htail : replaceCRLF rest = rest :=
      ih fun d hd => h d (List.mem_cons_of_mem _ hd)
    rw [replaceCRLF.eq_3 c rest fun rest2 hcr _ => hc hcr, htail]

theorem mapCRtoLF_id {l : List Char} (h : ∀ c ∈ l, c ≠ '\r') :
    mapCRtoLF l = l := by
  unfold mapCRtoLF
  rw [List.map_congr_left fun c hc => if_neg (h c hc)]
  exact List.map_id l

/- collapseSpaces lemmas. -/

theorem collapseSpaces_cons (c : Char) (l : List Char) :
    collapseSpaces (c :: l) =
      if c = ' ' ∧ (collapseSpaces l).head? = some ' ' then collapseSpaces l
      else c :: collapseSpaces l := rfl

theorem collapseSpaces_subset {l : List Char} {x : Char}
    (h : x ∈ collapseSpaces l) : x ∈ l := by
  induction l with
  | nil => simp [collapseSpaces] at h
  | cons c rest ih =>
    rw [collapseSpaces_cons] at h
    by_cases hc : c = ' ' ∧ (collapseSpaces rest).head? = some ' '
    · rw [if_pos hc] at h
      exact List.mem_cons_of_mem _ (ih h)
    · rw [if_neg hc] at h
      rcases List.mem_cons.mp h with he | hm
      · rw [he]; exact List.mem_cons_self c rest
      · exact List.mem_cons_of_mem _ (ih hm)

theorem collapseSpaces_head? (l : List Char) :
    (collapseSpaces l).head? = l.head? := by
  induction l with
  | nil => rfl
  | cons c rest ih =>
    rw [collapseSpaces_cons]
    by_cases hc : c = ' ' ∧ (collapseSpaces rest).head? = some ' '
    · rw [if_pos hc, hc.2, hc.1]
      rfl
    · rw [if_neg hc]
      rfl

theorem collapseSpaces_eq_nil_iff (l : List Char) :
    collapseSpaces l = [] ↔ l = [] := by
  constructor
  · intro h
    have := collapseSpaces_head? l
    rw [h] at this
    cases l with
    | nil => rfl
    | cons c rest => simp at this
  · intro h; rw [h]; rfl

theorem collapseSpaces_getLast? (l : List Char) :
    (collapseSpaces l).getLast? = l.getLast? := by
  induction l with
  | nil => rfl
  | cons c rest ih =>
    rw [collapseSpaces_cons]
    by_cases hc : c = ' ' ∧ (collapseSpaces rest).head? = some ' '
    · rw [if_pos hc]
      have hne : rest ≠ [] := by
        intro he
        rw [he] at hc
        simp [collapseSpaces] at hc
      rw [ih, getLast?_cons_of_ne_nil hne]
    · rw [if_neg hc]
      by_cases hr : rest = []
      · rw [hr]
        simp [collapseSpaces]
      · have hcr : collapseSpaces rest ≠ [] :=
          fun he => hr ((collapseSpaces_eq_nil_iff rest).mp he)
        rw [getLast?_cons_of_ne_nil hcr, getLast?_cons_of_ne_nil hr, ih]

/-- No two adjacent spaces. -/
def noDoubleSpace (l : List Char) : Prop :=
  List.Chain' (fun a b => ¬(a = ' ' ∧ b = ' ')) l

theorem collapseSpaces_noDouble (l : List Char) :
    noDoubleSpace (collapseSpaces l) := by
  induction l with
  | nil => exact List.chain'_nil
  | cons c rest ih =>
    rw [collapseSpaces_cons]
    by_cases hc : c = ' ' ∧ (collapseSpaces rest).head? = some ' '
    · rw [if_pos hc]; exact ih
    · rw [if_neg hc]
      rw [noDoubleSpace, List.chain'_cons']
      refine ⟨?_, ih⟩
      intro b hb hcb
      exact hc ⟨hcb.1, by rw [hb]; exact congrArg some hcb.2⟩

theorem collapseSpaces_id {l : List Char} (h : noDoubleSpace l) :
    collapseSpaces l = l := by
  induction l with
  | nil => rfl
  | cons c rest ih =>
    rw [noDoubleSpace, List.chain'_cons'] at h
    have htail : collapseSpaces rest = rest := ih h.2
    rw [collapseSpaces_cons, htail, if_neg]
    intro hc
    cases rest with
    | nil => simp at hc
    | cons d rest2 =>
      simp at hc
      exact h.1 d rfl ⟨hc.1, hc.2⟩

/- stripAfterNL / stripBeforeNL / collapseNewlines identity lemmas. -/

theorem stripAfterNLAux_id {l : List Char} (h : ∀ c ∈ l, c ≠ '\n') :
    stripAfterNLAux false l = l := by
  induction l with
  | nil => rfl
  | cons c rest ih =>
    have hc : (c == '\n') = false := by
      simpa using h c (List.mem_cons_self c rest)
    simp only [stripAfterNLAux, Bool.false_eq_true, false_and, if_false, hc]
    rw [ih fun d hd => h d (List.mem_cons_of_mem _ hd)]

theorem stripAfterNL_id {l : List Char} (h : ∀ c ∈ l, c ≠ '\n') :
    stripAfterNL l = l :=
  stripAfterNLAux_id h

theorem stripBeforeNL_cons (c : Char) (l : List Char) :
    stripBeforeNL (c :: l) =
      if c = ' ' ∧ (stripBeforeNL l).head? = some '\n' then stripBeforeNL l
      else c :: stripBeforeNL l := rfl

theorem stripBeforeNL_subset {l : List Char} {x : Char}
    (h : x ∈ stripBeforeNL l) : x ∈ l := by
  induction l with
  | nil => simp [stripBeforeNL] at h
  | cons c rest ih =>
    rw [stripBeforeNL_cons] at h
    by_cases hc : c = ' ' ∧ (stripBeforeNL rest).head? = some '\n'
    · rw [if_pos hc] at h
      exact List.mem_cons_of_mem _ (ih h)
    · rw [if_neg hc] at h
      rcases List.mem_cons.mp h with he | hm
      · rw [he]; exact List.mem_cons_self c rest
      · exact List.mem_cons_of_mem _ (ih hm)

theorem stripBeforeNL_id {l : List Char} (h : ∀ c ∈ l, c ≠ '\n') :
    stripBeforeNL l = l := by
  induction l with
  | nil => rfl
  | cons c rest ih =>
    have htail : stripBeforeNL rest = rest :=
      ih fun d hd => h d (List.mem_cons_of_mem _ hd)
    rw [stripBeforeNL_cons, htail, if_neg]
    intro hc
    have hmem : '\n' ∈ rest := by
      have := hc.2
      cases rest with
      | nil => simp at this
      | cons d rest2 =>
        simp at this
        rw [← this]
        exact List.mem_cons_self d rest2
    exact h '\n' (List.mem_cons_of_mem _ hmem) rfl

theorem collapseNewlines_cons (c : Char) (l : List Char) :
    collapseNewlines (c :: l) =
      if c = '\n' ∧ (collapseNewlines l).head? = some '\n' ∧
          (collapseNewlines l).tail.head? = some '\n' then collapseNewlines l
      else c :: collapseNewlines l := rfl

theorem collapseNewlines_id {l : List Char} (h : ∀ c ∈ l, c ≠ '\n') :
    collapseNewlines l = l := by
  induction l with
  | nil => rfl
  | cons c rest ih =>
    have htail : collapseNewlines rest = rest :=
      ih fun d hd => h d (List.mem_cons_of_mem _ hd)
    rw [collapseNewlines_cons, htail, if_neg]
    intro hc
    exact h c (List.mem_cons_self c rest) hc.1

/- Character-class facts for plain printable characters. -/

theorem plain_not_surrogate {c : Char} (h : plainChar c) :
    (!(isSurrogate c)) = true := by
  obtain ⟨h1, h2, h3⟩ := h
  simp [isSurrogate]
  omega

theorem plain_not_ctrl {c : Char} (h : plainChar c) :
    (!(isRemovedControl c)) = true := by
  obtain ⟨h1, h2, h3⟩ := h
  simp [isRemovedControl]
  omega

theorem plain_not_pua {c : Char} (h : plainChar c) :
    (!(isPrivateUse c)) = true := by
  obtain ⟨h1, h2, h3⟩ := h
  simp [isPrivateUse]
  omega

theorem plain_not_specials {c : Char} (h : plainChar c) :
    (!(isSpecials c)) = true := by
  obtain ⟨h1, h2, h3⟩ := h
  simp [isSpecials]
  omega

theorem plain_ne_of_toNat {c d : Char} (h : plainChar c)
    (hd : d.toNat < 0x20 ∨ 0x7E < d.toNat) : c ≠ d := by
  obtain ⟨h1, h2, _⟩ := h
  intro he
  rw [he] at h1 h2
  omega

theorem plain_not_fffd {c : Char} (h : plainChar c) :
    (!(c == '�')) = true := by
  have := plain_ne_of_toNat h (d := '�') (by right; decide)
  simpa using this

/-- On plain printable input the normalizer reduces to strip followed by
space collapapsing: every other stage is the identity. -/
theorem cleanStages_plain {l : List Char} (hp : ∀ c ∈ l, plainChar c) :
    cleanStages l = collapseSpaces (pyStrip l) := by
  have hp1 : ∀ c ∈ pyStrip l, plainChar c :=
    fun c hc => hp c (mem_of_mem_pyStrip hc)
  have hp2 : ∀ c ∈ collapseSpaces (pyStrip l), plainChar c :=
    fun c hc => hp1 c (collapseSpaces_subset hc)
  unfold cleanStages
  dsimp only
  rw [filter_eq_self_of_mem fun c hc => plain_not_surrogate (hp1 c hc)]
  rw [subImage_id fun c hc => (hp1 c hc).2.2]
  rw [subFormula_id fun c hc => (hp1 c hc).2.2]
  rw [removeComments_id fun c hc => (hp1 c hc).2.2]
  rw [filter_eq_self_of_mem fun c hc => plain_not_ctrl (hp1 c hc)]
  rw [filter_eq_self_of_mem fun c hc => plain_not_pua (hp1 c hc)]
  rw [filter_eq_self_of_mem fun c hc => plain_not_specials (hp1 c hc)]
  rw [applyReplacements_id fun c hc => (hp1 c hc).2.1]
  rw [replaceCRLF_id fun c hc =>
    plain_ne_of_toNat (hp1 c hc) (by left; decide)]
  rw [mapCRtoLF_id fun c hc =>
    plain_ne_of_toNat (hp1 c hc) (by left; decide)]
  rw [stripAfterNL_id fun c hc =>
    plain_ne_of_toNat (hp2 c hc) (by left; decide)]
  rw [stripBeforeNL_id fun c hc =>
    plain_ne_of_toNat (hp2 c hc) (by left; decide)]
  rw [collapseNewlines_id fun c hc =>
    plain_ne_of_toNat (hp2 c hc) (by left; decide)]
  rw [filter_eq_self_of_mem fun c hc => plain_not_fffd (hp2 c hc)]

/-- Claim C4 (amended).  The normalizer is idempotent on strings made of
printable ASCII other than `<` (no control characters, no markers, no
non-ASCII): on such strings the transform is strip followed by
space-collapsing, and a second application changes nothing.  On arbitrary
strings idempotence fails (see the counterexample). -/
theorem clean_idempotent_plain (s : String)
    (hp : ∀ c ∈ s.data, plainChar c) :
    cleanTextContent (cleanTextContent s) = cleanTextContent s := by
  by_cases hs : s.data = []
  · have h1 : cleanTextContent s = "" := by
      unfold cleanTextContent
      rw [if_pos hs]
    rw [h1]
    rfl
  · have h1 : cleanTextContent s = String.mk (collapseSpaces (pyStrip s.data)) := by
      unfold cleanTextContent
      rw [if_neg hs, cleanStages_plain hp]
    by_cases hynil : collapseSpaces (pyStrip s.data) = []
    · rw [h1, hynil]
      rfl
    · rw [h1]
      unfold cleanTextContent
      dsimp only
      rw [if_neg hynil]
      have hpy : ∀ c ∈ collapseSpaces (pyStrip s.data), plainChar c :=
        fun c hc => hp c (mem_of_mem_pyStrip (collapseSpaces_subset hc))
      rw [cleanStages_plain hpy]
      have hstrip : pyStrip (collapseSpaces (pyStrip s.data)) =
          collapseSpaces (pyStrip s.data) := by
        refine pyStrip_id ?_ ?_
        · intro c hc
          rw [collapseSpaces_head? (pyStrip s.data)] at hc
          exact pyStrip_head_not_ws hc
        · intro c hc
          rw [collapseSpaces_getLast? (pyStrip s.data)] at hc
          exact pyStrip_getLast_not_ws hc
      rw [hstrip, collapseSpaces_id (collapseSpaces_noDouble (pyStrip s.data))]

/-- Closed witness for `clean_idempotent_plain` at the plain string "a  b.". -/
theorem clean_idempotent_plain_witness :
    cleanTextContent (cleanTextContent "a  b.") = cleanTextContent "a  b." :=
  clean_idempotent_plain "a  b." (by decide)

/-- Counterexample to claim C4 as stated: `clean_text_content` is not
idempotent.  For the input "ab \x00" the first pass strips nothing (NUL is not
whitespace), then deletes the control character, leaving the trailing space
"ab "; only a second pass strips that space, so
`normalize(normalize(x)) ≠ normalize(x)`. -/
theorem clean_not_idempotent :
    cleanTextContent "ab \x00" = "ab " ∧
    cleanTextContent (cleanTextContent "ab \x00") = "ab" ∧
    cleanTextContent (cleanTextContent "ab \x00") ≠ cleanTextContent "ab \x00" := by
  refine ⟨by decide, by decide, by decide⟩

/- ============================================================ -/
/- Chunker (main.py:511-560, inside extract_chunks_from_json)   -/
/- ============================================================ -/

/-- `page_text.split('. ')` (main.py:518): split on every non-overlapping
occurrence of the two-character separator, left to right. -/
def splitOnDotSpace : List Char → List (List Char)
  | [] => [[]]
  | '.' :: ' ' :: rest => [] :: splitOnDotSpace rest
  | c :: rest =>
    match splitOnDotSpace rest with
    | [] => [[c]]
    | g :: gs => (c :: g) :: gs

/-- `s.strip().endswith(('.', '!', '?'))` (main.py:517). -/
def endsWithTerminator (l : List Char) : Bool :=
  match l.getLast? with
  | some c => c == '.' || c == '!' || c == '?'
  | none => false

/-- Sentence units (main.py:517-518): keep the fragments whose strip is
non-empty, and re-append a period if the fragment lacks terminal
punctuation. -/
def splitSentences (pageText : List Char) : List (List Char) :=
  (splitOnDotSpace pageText).filterMap fun s =>
    let t := pyStrip s
    if t = [] then none
    else some (if endsWithTerminator t then t else t ++ ['.'])

/-- Total length of the sentence units of a chunk (the Python code tracks
`current_length = sum(len(s) for s in current_chunk)`). -/
def sumLen (c : List (List Char)) : Nat := (c.map List.length).sum

/-- Backward walk over the just-emitted chunk accumulating whole units while
the running overlap stays within `cap` (main.py:536-544); stops at the first
unit that would exceed the cap. -/
def overlapTakeRev (cap : Nat) : List (List Char) → Nat → List (List Char)
  | [], _ => []
  | s :: rest, acc =>
    if acc + s.length ≤ cap then s :: overlapTakeRev cap rest (acc + s.length)
    else []

/-- The overlap seed for the next chunk (main.py:536-546): the walk runs from
the last unit backwards, and the kept units are re-emitted in order. -/
def overlapOf (cap : Nat) (chunk : List (List Char)) : List (List Char) :=
  (overlapTakeRev cap chunk.reverse 0).reverse

/-- The chunk-accumulation state of the loop at main.py:521-550. -/
structure ChunkState where
  chunks : List (List (List Char))
  current : List (List Char)
  currentLength : Nat

/-- One iteration of `for sentence in sentences` (main.py:524-550). -/
def chunkStep (maxSize : Nat) (st : ChunkState) (sentence : List Char) : ChunkState :=
  if st.currentLength + sentence.length > maxSize ∧ st.current ≠ [] then
    let ov := overlapOf (maxSize / 5) st.current
    { chunks := st.chunks ++ [st.current],
      current := ov ++ [sentence],
      currentLength := sumLen (ov ++ [sentence]) }
  else
    { chunks := st.chunks,
      current := st.current ++ [sentence],
      currentLength := st.currentLength + sentence.length }

/-- The chunker for one page (main.py:520-560): fold the sentences through
`chunkStep` and emit the final non-empty remainder.  `overlap_size` is
`max_chunk_size // 5` (main.py:511). -/
def chunkSentences (maxSize : Nat) (sentences : List (List Char)) :
    List (List (List Char)) :=
  let st := sentences.foldl (chunkStep maxSize) ⟨[], [], 0⟩
  st.chunks ++ (if st.current = [] then [] else [st.current])

/-- `' '.join(units)`. -/
def joinSpace : List (List Char) → List Char
  | [] => []
  | [x] => x
  | x :: xs => x ++ ' ' :: joinSpace xs

/-- Chunk contents produced for one page text (main.py:513-560). -/
def chunkPage (maxSize : Nat) (pageText : String) : List String :=
  (chunkSentences maxSize (splitSentences pageText.data)).map fun us =>
    String.mk (joinSpace us)

/- ============================================================ -/
/- Document extractor data model (main.py:193-218)              -/
/- ============================================================ -/

/-- `Coordinates` (main.py:193-197).  The source declares the fields as
floats; no logic verified here inspects their values, and every chunk built by
`extract_chunks_from_json` carries `coordinates=None`. -/
structure Coordinates where
  x : Int
  y : Int
  width : Int
  height : Int
deriving DecidableEq

/-- `TableStructure` (main.py:199-202). -/
structure TableStructure where
  headers : List String
  rows : List (List String)
  caption : Option String := none
deriving DecidableEq

/-- `ProcessedChunk` (main.py:204-211). -/
structure ProcessedChunk where
  content : String
  content_type : String
  page : Option Nat := none
  coordinates : Option Coordinates := none
  image_data : Option String := none
  image_url : Option String := none
  table_structure : Option TableStructure := none
deriving DecidableEq

/- ============================================================ -/
/- Extractor text gathering (main.py:483-562)                   -/
/- ============================================================ -/

/-- One entry of `doc_dict['texts']` (main.py:486-496): the raw text and the
`page_no` of each provenance entry (`none` when `page_no` is absent). -/
structure TextItem where
  text : String
  prov : List (Option Nat)
deriving DecidableEq

/-- main.py:492-496: default page 1, else `prov[0].get('page_no', 1)`. -/
def pageOfItem (t : TextItem) : Nat :=
  match t.prov with
  | [] => 1
  | p :: _ => p.getD 1

/-- Append a cleaned span to its page's list (main.py:500-502); a Python dict
keeps first-seen key order. -/
def addToPage (acc : List (Nat × List (List Char))) (p : Nat) (s : List Char) :
    List (Nat × List (List Char)) :=
  if acc.any fun e => e.1 = p then
    acc.map fun e => if e.1 = p then (e.1, e.2 ++ [s]) else e
  else acc ++ [(p, [s])]

/-- One iteration of `for text_item in doc_dict.get('texts', [])`
(main.py:486-502): skip empty raw text, clean, keep only spans whose cleaned
text is non-empty with length above 5. -/
def gatherStep (acc : List (Nat × List (List Char))) (t : TextItem) :
    List (Nat × List (List Char)) :=
  if t.text.data = [] then acc
  else
    let cleaned := cleanStages t.text.data
    if cleaned ≠ [] ∧ 5 < cleaned.length then
      addToPage acc (pageOfItem t) cleaned
    else acc

/-- `text_chunks_by_page` after the per-page `' '.join` (main.py:486-506). -/
def gatherPages (texts : List TextItem) : List (Nat × List Char) :=
  (texts.foldl gatherStep []).map fun e => (e.1, joinSpace e.2)

/-- `sorted(text_chunks_by_page.keys())` (main.py:513) via insertion sort. -/
def insertByKey (x : Nat × List Char) :
    List (Nat × List Char) → List (Nat × List Char)
  | [] => [x]
  | y :: ys => if x.1 < y.1 then x :: y :: ys else y :: insertByKey x ys

def sortPages : List (Nat × List Char) → List (Nat × List Char)
  | [] => []
  | x :: xs => insertByKey x (sortPages xs)

/-- The text half of `extract_chunks_from_json` (main.py:486-562): gather
cleaned spans per page, then chunk each page's joined text in ascending page
order, tagging every chunk with its page. -/
def extractTextChunks (maxSize : Nat) (texts : List TextItem) :
    List ProcessedChunk :=
  (sortPages (gatherPages texts)).flatMap fun pg =>
    (chunkSentences maxSize (splitSentences pg.2)).map fun us =>
      { content := String.mk (joinSpace us), content_type := "text",
        page := some pg.1 }

/-- A span the extractor keeps: its normalized content has length above 5. -/
def longSpan (t : TextItem) : Bool :=
  decide (5 < (cleanTextContent t.text).length)

/- ------------------------------------------------------------ -/
/- C1 proofs                                                    -/
/- ------------------------------------------------------------ -/

theorem sumLen_append (a b : List (List Char)) :
    sumLen (a ++ b) = sumLen a + sumLen b := by
  simp [sumLen]

theorem sumLen_cons (x : List Char) (l : List (List Char)) :
    sumLen (x :: l) = x.length + sumLen l := by
  simp [sumLen]

theorem sumLen_nil : sumLen ([] : List (List Char)) = 0 := rfl

theorem sumLen_singleton (s : List Char) : sumLen [s] = s.length := by
  simp [sumLen]

theorem sumLen_reverse (l : List (List Char)) : sumLen l.reverse = sumLen l := by
  simp [sumLen, List.sum_reverse]

theorem overlapTakeRev_bound (cap : Nat) :
    ∀ (l : List (List Char)) (acc : Nat), acc ≤ cap →
      acc + sumLen (overlapTakeRev cap l acc) ≤ cap := by
  intro l
  induction l with
  | nil => intro acc h; simpa [overlapTakeRev, sumLen] using h
  | cons s rest ih =>
    intro acc h
    by_cases hc : acc + s.length ≤ cap
    · simp only [overlapTakeRev, if_pos hc]
      rw [sumLen_cons]
      have := ih (acc + s.length) hc
      omega
    · simp only [overlapTakeRev, if_neg hc]
      rw [sumLen_nil]
      omega

theorem overlapOf_bound (cap : Nat) (chunk : List (List Char)) :
    sumLen (overlapOf cap chunk) ≤ cap := by
  have h := overlapTakeRev_bound cap chunk.reverse 0 (Nat.zero_le _)
  unfold overlapOf
  rw [sumLen_reverse]
  omega

/-- The shape every emitted chunk has: its units total at most
`maxSize + maxSize / 5`, unless the final unit is itself oversized, in which
case everything before that unit is overlap of total length at most
`maxSize / 5`. -/
def chunkOk (maxSize : Nat) (c : List (List Char)) : Prop :=
  sumLen c ≤ maxSize + maxSize / 5 ∨
    ∃ u ∈ c, maxSize < u.length ∧ sumLen c ≤ maxSize / 5 + u.length

def stateOk (maxSize : Nat) (st : ChunkState) : Prop :=
  st.currentLength = sumLen st.current ∧
  (∀ c ∈ st.chunks, chunkOk maxSize c) ∧
  chunkOk maxSize st.current

theorem chunkStep_ok (maxSize : Nat) (st : ChunkState) (s : List Char)
    (h : stateOk maxSize st) : stateOk maxSize (chunkStep maxSize st s) := by
  obtain ⟨cs, cur, clen⟩ := st
  obtain ⟨hlen, hchunks, hcur⟩ := h
  dsimp only at hlen hchunks hcur
  unfold chunkStep stateOk
  by_cases hc : clen + s.length > maxSize ∧ cur ≠ []
  · rw [if_pos hc]
    dsimp only
    refine ⟨rfl, ?_, ?_⟩
    · intro c hcmem
      rcases List.mem_append.mp hcmem with hm | hm
      · exact hchunks c hm
      · rw [List.mem_singleton.mp hm]; exact hcur
    · have hov : sumLen (overlapOf (maxSize / 5) cur) ≤ maxSize / 5 :=
        overlapOf_bound _ _
      have hsum : sumLen (overlapOf (maxSize / 5) cur ++ [s]) =
          sumLen (overlapOf (maxSize / 5) cur) + s.length := by
        rw [sumLen_append, sumLen_singleton]
      by_cases hs : s.length ≤ maxSize
      · exact Or.inl (by omega)
      · exact Or.inr ⟨s, List.mem_append_right _ (List.mem_singleton.mpr rfl),
          by omega, by omega⟩
  · rw [if_neg hc]
    dsimp only
    rw [not_and_or, not_ne_iff] at hc
    have hsum : sumLen (cur ++ [s]) = sumLen cur + s.length := by
      rw [sumLen_append, sumLen_singleton]
    refine ⟨by omega, hchunks, ?_⟩
    rcases hc with hle | hemp
    · exact Or.inl (by omega)
    · rw [hemp] at hsum ⊢
      rw [List.nil_append] at hsum ⊢
      rw [sumLen_nil, sumLen_singleton] at hsum
      by_cases hs : s.length ≤ maxSize + maxSize / 5
      · exact Or.inl (by rw [sumLen_singleton]; omega)
      · exact Or.inr ⟨s, List.mem_singleton.mpr rfl, by omega,
          by rw [sumLen_singleton]; omega⟩

theorem chunkFold_ok (maxSize : Nat) :
    ∀ (ss : List (List Char)) (st : ChunkState), stateOk maxSize st →
      stateOk maxSize (ss.foldl (chunkStep maxSize) st) := by
  intro ss
  induction ss with
  | nil => intro st h; exact h
  | cons s rest ih =>
    intro st h
    exact ih _ (chunkStep_ok maxSize st s h)

/-- Claim C1 (amended).  Every chunk emitted by the sentence-accumulating
chunking algorithm has sentence units totalling at most
`max_chunk_size + max_chunk_size / 5` characters (the chunk's content is that
total plus one joining space between consecutive units), except that a chunk
whose final unit is itself longer than `max_chunk_size` carries that unit whole
(never split) preceded only by an overlap seed of at most `max_chunk_size / 5`
characters. -/
theorem chunk_units_bound (pageText : String) (maxSize : Nat) :
    ∀ c ∈ chunkSentences maxSize (splitSentences pageText.data),
      sumLen c ≤ maxSize + maxSize / 5 ∨
        ∃ u ∈ c, maxSize < u.length ∧ sumLen c ≤ maxSize / 5 + u.length := by
  have h0 : stateOk maxSize ⟨[], [], 0⟩ := by
    refine ⟨by simp [sumLen], by simp, Or.inl (by simp [sumLen])⟩
  have h := chunkFold_ok maxSize (splitSentences pageText.data) _ h0
  intro c hc
  unfold chunkSentences at hc
  rcases List.mem_append.mp hc with hm | hm
  · exact h.2.1 c hm
  · by_cases hemp :
      ((splitSentences pageText.data).foldl (chunkStep maxSize) ⟨[], [], 0⟩).current = []
    · simp [hemp] at hm
    · rw [if_neg hemp] at hm
      rw [List.mem_singleton.mp hm]
      exact h.2.2

/-- Closed witness for `chunk_units_bound`: the single sentence "abc" becomes
the unit "abc." and is emitted as one chunk within the bound. -/
theorem chunk_units_bound_witness :
    sumLen [['a', 'b', 'c', '.']] ≤ 10 + 10 / 5 ∨
      ∃ u ∈ [['a', 'b', 'c', '.']], 10 < u.length ∧
        sumLen [['a', 'b', 'c', '.']] ≤ 10 / 5 + u.length :=
  chunk_units_bound "abc" 10 [['a', 'b', 'c', '.']] (by decide)

/-- Counterexample to claim C1 as stated.  With `max_chunk_size = 10`:
the page text "abcd. efgh" yields one chunk "abcd. efgh." of content length 11,
although every sentence unit has length at most 10 (the joining space is not
counted by the accumulator); and the page text "abcdefg. x. abcdefgh" yields a
second chunk "x. abcdefgh." whose units alone total 11 > 10 because the
overlap seed "x." is prepended, again with every unit within the limit. -/
theorem chunk_exceeds_max_counterexample :
    chunkPage 10 "abcd. efgh" = ["abcd. efgh."] ∧
    ("abcd. efgh." : String).length = 11 ∧
    (∀ u ∈ splitSentences ("abcd. efgh" : String).data, u.length ≤ 10) ∧
    chunkPage 10 "abcdefg. x. abcdefgh" = ["abcdefg. x.", "x. abcdefgh."] ∧
    ("x. abcdefgh." : String).length = 12 ∧
    (∀ u ∈ splitSentences ("abcdefg. x. abcdefgh" : String).data,
      u.length ≤ 10) := by
  decide

/- ------------------------------------------------------------ -/
/- C10 proofs                                                   -/
/- ------------------------------------------------------------ -/

theorem cleanTextContent_length (s : String) :
    (cleanTextContent s).length = (cleanStages s.data).length := by
  unfold cleanTextContent
  by_cases hs : s.data = []
  · rw [if_pos hs, hs]
    rfl
  · rw [if_neg hs]
    rfl

theorem gatherStep_short {acc : List (Nat × List (List Char))} {t : TextItem}
    (h : (cleanStages t.text.data).length ≤ 5) : gatherStep acc t = acc := by
  unfold gatherStep
  by_cases ht : t.text.data = []
  · rw [if_pos ht]
  · rw [if_neg ht]
    dsimp only
    rw [if_neg]
    intro hc
    omega

theorem gatherFold_filter : ∀ (texts : List TextItem)
    (acc : List (Nat × List (List Char))),
    texts.foldl gatherStep acc = (texts.filter longSpan).foldl gatherStep acc := by
  intro texts
  induction texts with
  | nil => intro acc; rfl
  | cons t rest ih =>
    intro acc
    rw [List.foldl_cons, List.filter_cons]
    by_cases hl : longSpan t = true
    · rw [if_pos hl, List.foldl_cons]
      exact ih (gatherStep acc t)
    · rw [if_neg hl]
      have hshort : (cleanStages t.text.data).length ≤ 5 := by
        unfold longSpan at hl
        rw [cleanTextContent_length] at hl
        simpa using hl
      rw [gatherStep_short hshort]
      exact ih acc

/-- Claim C10.  A text span whose normalized content has length 5 or less is
silently discarded: the per-page gathering is unchanged when all such spans
are removed (so they contribute to no chunk), and a document whose spans are
all that short yields zero text chunks. -/
theorem short_span_discarded (texts : List TextItem) (maxSize : Nat) :
    gatherPages texts = gatherPages (texts.filter longSpan) ∧
    ((∀ t ∈ texts, (cleanTextContent t.text).length ≤ 5) →
      extractTextChunks maxSize texts = []) := by
  constructor
  · unfold gatherPages
    rw [gatherFold_filter texts []]
  · intro hall
    have hfilter : texts.filter longSpan = [] := by
      rw [List.filter_eq_nil_iff]
      intro t ht
      unfold longSpan
      have := hall t ht
      simpa using this
    unfold extractTextChunks gatherPages
    rw [gatherFold_filter texts [], hfilter]
    rfl

/-- Closed witness for `short_span_discarded`: two short spans ("hi" and
"a b") produce no text chunks at all. -/
theorem short_span_discarded_witness :
    extractTextChunks 1000
      [TextItem.mk "hi" [], TextItem.mk "a b" [some 2]] = [] :=
  (short_span_discarded [TextItem.mk "hi" [], TextItem.mk "a b" [some 2]]
    1000).2 (by decide)

/- ============================================================ -/
/- Image pipeline (main.py:151-190, 330-416, 564-655)           -/
/- ============================================================ -/

/-- Value of a base64 alphabet character. -/
def b64Val (c : Char) : Option Nat :=
  if 'A' ≤ c ∧ c ≤ 'Z' then some (c.toNat - 65)
  else if 'a' ≤ c ∧ c ≤ 'z' then some (c.toNat - 97 + 26)
  else if '0' ≤ c ∧ c ≤ '9' then some (c.toNat - 48 + 52)
  else if c = '+' then some 62
  else if c = '/' then some 63
  else none

/-- `base64.b64decode` (main.py:579) discards characters outside the alphabet
(keeping `=`) before decoding. -/
def b64Filter (l : List Char) : List Char :=
  l.filter fun c => (b64Val c).isSome || c == '='

/-- Decode filtered base64 four symbols at a time; `none` models the
`binascii.Error` raised on invalid length or padding, which the extraction
loop catches and turns into a skip. -/
def b64Quads : List Char → Option (List Nat)
  | [] => some []
  | a :: b :: c :: d :: rest =>
    match b64Val a, b64Val b with
    | some va, some vb =>
      if c = '=' ∧ d = '=' ∧ rest = [] then some [va * 4 + vb / 16]
      else
        match b64Val c with
        | some vc =>
          if d = '=' ∧ rest = [] then
            some [va * 4 + vb / 16, (vb % 16) * 16 + vc / 4]
          else
            match b64Val d with
            | some vd =>
              (b64Quads rest).map fun bs =>
                (va * 4 + vb / 16) :: ((vb % 16) * 16 + vc / 4) ::
                  ((vc % 4) * 64 + vd) :: bs
            | none => none
        | none => none
    | _, _ => none
  | _ => none

def b64decode (s : String) : Option (List Nat) :=
  b64Quads (b64Filter s.data)

/-- A `docling` picture element as the extraction loop reads it
(main.py:571-605): the base64 payload `extract_image_from_picture` returns
(`none` when every accessor fails), the `page_no` of each provenance entry,
and the caption. -/
structure Picture where
  imageData : Option String
  prov : List (Option Nat)
  caption : Option String := none
deriving DecidableEq

/-- main.py:587-593: page 1 unless some provenance entry carries a page. -/
def pageOfPicture (p : Picture) : Nat :=
  match p.prov.findSome? id with
  | some n => n
  | none => 1

/-- main.py:596-598: `f" Caption: {picture.caption}"` when the caption is
truthy. -/
def captionTextOf (p : Picture) : String :=
  match p.caption with
  | some c => if c = "" then "" else " Caption: " ++ c
  | none => ""

/-- One record of the `valid_images` list (main.py:600-605). -/
structure ValidImage where
  index : Nat
  image_data : String
  page_no : Nat
  caption_text : String
deriving DecidableEq

/-- Decide whether picture `p` (at position `i`) enters `valid_images`
(main.py:571-605): extraction must produce a payload, the payload must
decode, and the decoded size must be at least 100 bytes. -/
def validOf (i : Nat) (p : Picture) : Option ValidImage :=
  match p.imageData with
  | none => none
  | some d =>
    match b64decode d with
    | none => none
    | some bytes =>
      if bytes.length < 100 then none
      else some ⟨i, d, pageOfPicture p, captionTextOf p⟩

def collectValidAux (i : Nat) : List Picture → List ValidImage
  | [] => []
  | p :: rest =>
    match validOf i p with
    | some v => v :: collectValidAux (i + 1) rest
    | none => collectValidAux (i + 1) rest

/-- The `valid_images` list built by the `for i, picture in
enumerate(doc.pictures)` loop (main.py:571-605). -/
def collectValidImages (pictures : List Picture) : List ValidImage :=
  collectValidAux 0 pictures

/-- The two external calls `process_single_image` makes for one valid image
(main.py:613-627): the vision-description request and the storage upload. -/
inductive ExternalCall
  | vision (index : Nat) (imageData : String) (page : Nat)
  | upload (index : Nat) (imageData : String)
deriving DecidableEq

def callIndex : ExternalCall → Nat
  | .vision i _ _ => i
  | .upload i _ => i

/-- The chunk `process_single_image` returns (main.py:613-636); `describe`
abstracts `analyze_image_with_vision` and `upload` abstracts
`upload_image_to_r2` (external collaborators).  The inline payload is dropped
exactly when the upload returned a URL. -/
def imageChunkOf (describe : String → Nat → String → String)
    (upload : String → Nat → Option String) (filename : String)
    (v : ValidImage) : ProcessedChunk :=
  let desc := describe v.image_data v.page_no filename
  let content := desc ++ " (Page " ++ toString v.page_no ++ " from " ++
    filename ++ ")" ++ v.caption_text
  let url := upload v.image_data v.index
  { content := content, content_type := "image", page := some v.page_no,
    coordinates := none,
    image_data := if url.isSome then none else some v.image_data,
    image_url := url }

def callsOf (v : ValidImage) : List ExternalCall :=
  [.vision v.index v.image_data v.page_no, .upload v.index v.image_data]

/-- The image half of `extract_chunks_from_json` (main.py:564-655): one chunk
and one pair of external calls per valid image, none for the others.  (The
bounded-concurrency fan-out does not change which images are processed, and
`asyncio.gather` preserves order.) -/
def processImages (describe : String → Nat → String → String)
    (upload : String → Nat → Option String) (filename : String)
    (pictures : List Picture) : List ProcessedChunk × List ExternalCall :=
  let valid := collectValidImages pictures
  (valid.map (imageChunkOf describe upload filename), valid.flatMap callsOf)

/- ------------------------------------------------------------ -/
/- C8 proofs                                                    -/
/- ------------------------------------------------------------ -/

/-- A picture whose extracted payload decodes to fewer than 100 bytes
(main.py:579-581). -/
def belowThreshold (p : Picture) : Prop :=
  ∃ d bs, p.imageData = some d ∧ b64decode d = some bs ∧ bs.length < 100

theorem validOf_none_of_small {i : Nat} {p : Picture}
    (h : belowThreshold p) : validOf i p = none := by
  obtain ⟨d, bs, hd, hbs, hlen⟩ := h
  unfold validOf
  rw [hd]
  dsimp only
  rw [hbs]
  dsimp only
  rw [if_pos hlen]

theorem validOf_index {i : Nat} {p : Picture} {v : ValidImage}
    (h : validOf i p = some v) : v.index = i := by
  unfold validOf at h
  cases hp : p.imageData with
  | none => rw [hp] at h; exact absurd h (by simp)
  | some d =>
    rw [hp] at h
    dsimp only at h
    cases hb : b64decode d with
    | none => rw [hb] at h; exact absurd h (by simp)
    | some bs =>
      rw [hb] at h
      dsimp only at h
      by_cases hl : bs.length < 100
      · rw [if_pos hl] at h; exact absurd h (by simp)
      · rw [if_neg hl] at h
        simp at h
        rw [← h]

theorem collectValidAux_index_ge :
    ∀ (ps : List Picture) (i : Nat) (v : ValidImage),
      v ∈ collectValidAux i ps → i ≤ v.index := by
  intro ps
  induction ps with
  | nil => intro i v h; simp [collectValidAux] at h
  | cons q rest ih =>
    intro i v h
    unfold collectValidAux at h
    cases hq : validOf i q with
    | some v0 =>
      rw [hq] at h
      rcases List.mem_cons.mp h with he | hm
      · rw [he, validOf_index hq]
      · exact Nat.le_of_succ_le (ih (i + 1) v hm)
    | none =>
      rw [hq] at h
      exact Nat.le_of_succ_le (ih (i + 1) v h)

theorem collectValidAux_small_excluded :
    ∀ (ps : List Picture) (i k : Nat) (p : Picture),
      ps[k]? = some p → belowThreshold p →
      ∀ v ∈ collectValidAux i ps, v.index ≠ i + k := by
  intro ps
  induction ps with
  | nil => intro i k p hk; simp at hk
  | cons q rest ih =>
    intro i k p hk hsmall v hv
    unfold collectValidAux at hv
    cases k with
    | zero =>
      have hq : q = p := by simpa using hk
      rw [validOf_none_of_small (hq ▸ hsmall)] at hv
      have := collectValidAux_index_ge rest (i + 1) v hv
      omega
    | succ k0 =>
      have hk0 : rest[k0]? = some p := by simpa using hk
      cases hq : validOf i q with
      | some v0 =>
        rw [hq] at hv
        rcases List.mem_cons.mp hv with he | hm
        · rw [he, validOf_index hq]
          omega
        · have := ih (i + 1) k0 p hk0 hsmall v hm
          omega
      | none =>
        rw [hq] at hv
        have := ih (i + 1) k0 p hk0 hsmall v hv
        omega

/-- Claim C8.  A picture element whose extracted image payload decodes to
fewer than 100 bytes (the minimum byte-size threshold, main.py:580) never
enters `valid_images`: the extractor produces no chunk for it and performs no
vision-description call and no storage upload on its behalf; the chunk list is
exactly one chunk per valid image. -/
theorem small_image_no_output
    (describe : String → Nat → String → String)
    (upload : String → Nat → Option String) (filename : String)
    (pictures : List Picture) (k : Nat) (p : Picture)
    (hk : pictures[k]? = some p) (d : String) (bs : List Nat)
    (hd : p.imageData = some d) (hbs : b64decode d = some bs)
    (hsmall : bs.length < 100) :
    (∀ v ∈ collectValidImages pictures, v.index ≠ k) ∧
    (∀ call ∈ (processImages describe upload filename pictures).2,
      callIndex call ≠ k) ∧
    (processImages describe upload filename pictures).1 =
      (collectValidImages pictures).map
        (imageChunkOf describe upload filename) := by
  have hbelow : belowThreshold p := ⟨d, bs, hd, hbs, hsmall⟩
  have hmain : ∀ v ∈ collectValidImages pictures, v.index ≠ k := by
    intro v hv
    have := collectValidAux_small_excluded pictures 0 k p hk hbelow v hv
    simpa using this
  refine ⟨hmain, ?_, rfl⟩
  intro call hcall
  unfold processImages at hcall
  dsimp only at hcall
  rw [List.mem_flatMap] at hcall
  obtain ⟨v, hv, hcv⟩ := hcall
  have hidx : callIndex call = v.index := by
    unfold callsOf at hcv
    rcases List.mem_cons.mp hcv with he | hm
    · rw [he]; rfl
    · rcases List.mem_cons.mp hm with he2 | hnil
      · rw [he2]; rfl
      · simp at hnil
  rw [hidx]
  exact hmain v hv

/-- Closed witness for `small_image_no_output`: a single picture whose
payload "QUJD" decodes to the 3 bytes of "ABC". -/
theorem small_image_no_output_witness :
    (∀ v ∈ collectValidImages [Picture.mk (some "QUJD") [] none],
      v.index ≠ 0) ∧
    (∀ call ∈ (processImages (fun _ _ _ => "d") (fun _ _ => none) "f.pdf"
        [Picture.mk (some "QUJD") [] none]).2, callIndex call ≠ 0) ∧
    (processImages (fun _ _ _ => "d") (fun _ _ => none) "f.pdf"
        [Picture.mk (some "QUJD") [] none]).1 =
      (collectValidImages [Picture.mk (some "QUJD") [] none]).map
        (imageChunkOf (fun _ _ _ => "d") (fun _ _ => none) "f.pdf") :=
  small_image_no_output (fun _ _ _ => "d") (fun _ _ => none) "f.pdf"
    [Picture.mk (some "QUJD") [] none] 0 (Picture.mk (some "QUJD") [] none)
    rfl "QUJD" [65, 66, 67] rfl (by decide) (by decide)

/- ============================================================ -/
/- HTTP handler process_document (main.py:672-763)              -/
/- ============================================================ -/

/-- `ProcessingResponse` (main.py:213-218).  `processing_time` is a float in
the source; it is modelled as an opaque tick count, since no verified logic
reads its value. -/
structure ProcessingResponse where
  success : Bool
  chunks : List ProcessedChunk
  total_pages : Nat
  processing_time : Nat
  error : Option String := none
deriving DecidableEq

/-- Outcome of the body of the `try` block (main.py:700-738): the pipeline
returns chunks and a page count, raises an `HTTPException`, or raises any
other exception carrying `str(e)`. -/
inductive PipelineOutcome
  | ok (chunks : List ProcessedChunk) (totalPages : Nat)
  | httpExn (statusCode : Nat) (detail : String)
  | exn (message : String)
deriving DecidableEq

/-- What the handler hands back to the framework: a normal response or a
raised `HTTPException`. -/
inductive HandlerOutput
  | response (r : ProcessingResponse)
  | httpError (statusCode : Nat) (detail : String)
deriving DecidableEq

/-- The `allowed_types` list (main.py:688-693). -/
def allowedContentTypes : List String :=
  ["application/pdf",
   "application/vnd.openxmlformats-officedocument.wordprocessingml.document",
   "application/vnd.openxmlformats-officedocument.presentationml.presentation",
   "text/html"]

/-- `process_document` (main.py:672-763) as a function of the pipeline
outcome.  The returned flag records whether the `finally` block deleted the
temporary file (`temp_path` is only set inside `try`, so the two pre-`try`
rejections delete nothing).  On a non-HTTP exception the handler returns a
normal response with `success=False`, empty chunks, `total_pages=0` and the
message in `error` (main.py:743-754); `HTTPException`s are re-raised
(main.py:740-742). -/
def process_document (doclingAvailable : Bool) (contentType : String)
    (elapsed : Nat) (outcome : PipelineOutcome) : HandlerOutput × Bool :=
  if ¬doclingAvailable then
    (.httpError 500 "Docling not available. Please install docling package.",
     false)
  else if ¬(contentType ∈ allowedContentTypes) then
    (.httpError 400 ("Unsupported file type: " ++ contentType ++
      ". Supported: PDF, DOCX, PPTX, HTML"), false)
  else
    match outcome with
    | .ok cs totalPages =>
      (.response { success := true, chunks := cs, total_pages := totalPages, processing_time := elapsed }, true)
    | .httpExn code detail => (.httpError code detail, true)
    | .exn msg =>
      (.response { success := false, chunks := [], total_pages := 0, processing_time := elapsed, error := some msg }, true)

/-- Claim C9.  For every exception during document processing that is not an
HTTP framework exception, the handler neither propagates it nor returns an
HTTP error: it returns a normal `ProcessingResponse` with `success=False`,
empty chunks, `total_pages=0` and the exception message in `error`, and the
temporary file is deleted on this path just as on the success path. -/
theorem handler_exception_response (contentType : String) (elapsed : Nat)
    (msg : String) (hct : contentType ∈ allowedContentTypes) :
    process_document true contentType elapsed (.exn msg) =
      (.response { success := false, chunks := [], total_pages := 0, processing_time := elapsed, error := some msg }, true) ∧
    (process_document true contentType elapsed (.ok [] 1)).2 =
      (process_document true contentType elapsed (.exn msg)).2 := by
  unfold process_document
  simp only [if_neg (fun h => h rfl : ¬¬(true = true)),
    if_neg (fun h => h hct : ¬(contentType ∉ allowedContentTypes))]
  exact ⟨rfl, rfl⟩

/-- Closed witness for `handler_exception_response` at a PDF upload whose
pipeline raises "boom". -/
theorem handler_exception_response_witness :
    process_document true "application/pdf" 7 (.exn "boom") =
      (.response { success := false, chunks := [], total_pages := 0, processing_time := 7, error := some "boom" }, true) ∧
    (process_document true "application/pdf" 7 (.ok [] 1)).2 =
      (process_document true "application/pdf" 7 (.exn "boom")).2 :=
  handler_exception_response "application/pdf" 7 "boom" (by decide)

/- ============================================================ -/
/- MD5 (RFC 1321), used by generate_document_id                 -/
/- ============================================================ -/

/-- UTF-8 bytes of one scalar value (Python `str.encode('utf-8')`). -/
def utf8Char (c : Char) : List Nat :=
  let n := c.toNat
  if n < 0x80 then [n]
  else if n < 0x800 then [0xC0 + n / 64, 0x80 + n % 64]
  else if n < 0x10000 then
    [0xE0 + n / 4096, 0x80 + (n / 64) % 64, 0x80 + n % 64]
  else
    [0xF0 + n / 262144, 0x80 + (n / 4096) % 64, 0x80 + (n / 64) % 64,
     0x80 + n % 64]

def utf8Bytes (s : String) : List Nat := s.data.flatMap utf8Char

def rotl32 (x s : Nat) : Nat :=
  ((x <<< s) ||| (x >>> (32 - s))) % 4294967296

def add32 (a b : Nat) : Nat := (a + b) % 4294967296

def bnot32 (x : Nat) : Nat := x ^^^ 4294967295

/-- The sixty-four sine-derived constants `K[i]`. -/
def md5K : List Nat :=
  [0xd76aa478, 0xe8c7b756, 0x242070db, 0xc1bdceee,
   0xf57c0faf, 0x4787c62a, 0xa8304613, 0xfd469501,
   0x698098d8, 0x8b44f7af, 0xffff5bb1, 0x895cd7be,
   0x6b901122, 0xfd987193, 0xa679438e, 0x49b40821,
   0xf61e2562, 0xc040b340, 0x265e5a51, 0xe9b6c7aa,
   0xd62f105d, 0x02441453, 0xd8a1e681, 0xe7d3fbc8,
   0x21e1cde6, 0xc33707d6, 0xf4d50d87, 0x455a14ed,
   0xa9e3e905, 0xfcefa3f8, 0x676f02d9, 0x8d2a4c8a,
   0xfffa3942, 0x8771f681, 0x6d9d6122, 0xfde5380c,
   0xa4beea44, 0x4bdecfa9, 0xf6bb4b60, 0xbebfbc70,
   0x289b7ec6, 0xeaa127fa, 0xd4ef3085, 0x04881d05,
   0xd9d4d039, 0xe6db99e5, 0x1fa27cf8, 0xc4ac5665,
   0xf4292244, 0x432aff97, 0xab9423a7, 0xfc93a039,
   0x655b59c3, 0x8f0ccc92, 0xffeff47d, 0x85845dd1,
   0x6fa87e4f, 0xfe2ce6e0, 0xa3014314, 0x4e0811a1,
   0xf7537e82, 0xbd3af235, 0x2ad7d2bb, 0xeb86d391]

/-- The per-operation left-rotation amounts `s[i]`. -/
def md5S : List Nat :=
  [7, 12, 17, 22, 7, 12, 17, 22, 7, 12, 17, 22, 7, 12, 17, 22,
   5, 9, 14, 20, 5, 9, 14, 20, 5, 9, 14, 20, 5, 9, 14, 20,
   4, 11, 16, 23, 4, 11, 16, 23, 4, 11, 16, 23, 4, 11, 16, 23,
   6, 10, 15, 21, 6, 10, 15, 21, 6, 10, 15, 21, 6, 10, 15, 21]

/-- The round function F/G/H/I according to the operation index. -/
def md5F (i b c d : Nat) : Nat :=
  if i < 16 then (b &&& c) ||| (bnot32 b &&& d)
  else if i < 32 then (d &&& b) ||| (bnot32 d &&& c)
  else if i < 48 then b ^^^ c ^^^ d
  else c ^^^ (b ||| bnot32 d)

/-- The message-word index `g` for operation `i`. -/
def md5G (i : Nat) : Nat :=
  if i < 16 then i
  else if i < 32 then (5 * i + 1) % 16
  else if i < 48 then (3 * i + 5) % 16
  else (7 * i) % 16

def md5Step (ws : List Nat) (st : Nat × Nat × Nat × Nat) (i : Nat) :
    Nat × Nat × Nat × Nat :=
  let a := st.1
  let b := st.2.1
  let c := st.2.2.1
  let d := st.2.2.2
  let f := (md5F i b c d + a + md5K.getD i 0 + ws.getD (md5G i) 0) % 4294967296
  (d, add32 b (rotl32 f (md5S.getD i 0)), b, c)

/-- Split 64 little-endian bytes into sixteen 32-bit words. -/
def bytesToWords : List Nat → List Nat
  | a :: b :: c :: d :: rest =>
    (a + 256 * b + 65536 * c + 16777216 * d) :: bytesToWords rest
  | _ => []

def md5Compress (block : List Nat) (st : Nat × Nat × Nat × Nat) :
    Nat × Nat × Nat × Nat :=
  let ws := bytesToWords block
  let r := (List.range 64).foldl (md5Step ws) st
  (add32 st.1 r.1, add32 st.2.1 r.2.1, add32 st.2.2.1 r.2.2.1,
   add32 st.2.2.2 r.2.2.2)

/-- Eight little-endian bytes of the 64-bit message bit length. -/
def lenBytes64 (n : Nat) : List Nat :=
  [n % 256, n / 256 % 256, n / 65536 % 256, n / 16777216 % 256,
   n / 4294967296 % 256, n / 1099511627776 % 256,
   n / 281474976710656 % 256, n / 72057594037927936 % 256]

/-- Append `0x80`, zero-pad to 56 mod 64, append the bit length. -/
def md5Pad (msg : List Nat) : List Nat :=
  msg ++ [0x80] ++ List.replicate ((119 - msg.length % 64) % 64) 0 ++
    lenBytes64 ((8 * msg.length) % 18446744073709551616)

/-- Process the padded message 64 bytes at a time (the fuel, initialised to
the padded length, bounds the number of blocks). -/
def md5Blocks : Nat → List Nat → Nat × Nat × Nat × Nat → Nat × Nat × Nat × Nat
  | 0, _, st => st
  | fuel + 1, bytes, st =>
    if bytes = [] then st
    else md5Blocks fuel (bytes.drop 64) (md5Compress (bytes.take 64) st)

def wordLE (w : Nat) : List Nat :=
  [w % 256, w / 256 % 256, w / 65536 % 256, w / 16777216 % 256]

def md5Digest (msg : List Nat) : List Nat :=
  let p := md5Pad msg
  let st := md5Blocks p.length p (0x67452301, 0xefcdab89, 0x98badcfe, 0x10325476)
  wordLE st.1 ++ wordLE st.2.1 ++ wordLE st.2.2.1 ++ wordLE st.2.2.2

def hexChar (n : Nat) : Char :=
  if n < 10 then Char.ofNat (48 + n) else Char.ofNat (87 + n)

def byteHex (b : Nat) : List Char := [hexChar (b / 16), hexChar (b % 16)]

/-- `hashlib.md5(s.encode('utf-8')).hexdigest()`. -/
def md5HexOf (s : String) : String :=
  String.mk ((md5Digest (utf8Bytes s)).flatMap byteHex)

/- ============================================================ -/
/- Embedding & store adapter (vector_service.py:120-219)        -/
/- ============================================================ -/

/-- The metadata dict built at vector_service.py:158-165.  It always carries
the keys `source, page, filename, contentHash, contentType, section` and
never a `coordinates` key, so in `generate_document_id` the lookup
`metadata.get('contentHash', metadata.get('source', ''))` always finds
`contentHash`, and `metadata.get('coordinates', {})` always falls back to
`{}`. -/
structure StoreMetadata where
  source : String
  page : Nat
  filename : String
  contentHash : String
  contentType : String
  sectionName : String
deriving DecidableEq

/-- `generate_document_id` (vector_service.py:120-129): the chunk hash is the
first 8 hex digits of the MD5 of the first 256 characters of the content (of
`json.dumps({}) = "\x7b\x7d"` when the content is empty), and the id is the
MD5 of `contentHash|page|section|chunk_hash`. -/
def generate_document_id (content : String) (m : StoreMetadata) : String :=
  let content_hash := m.contentHash
  let chunk_hash := String.mk ((md5HexOf (if content.data = [] then "\x7b\x7d"
    else String.mk (content.data.take 256))).data.take 8)
  md5HexOf (content_hash ++ "|" ++ toString m.page ++ "|" ++ m.sectionName ++
    "|" ++ chunk_hash)

/-- One element of the `chunks` list passed to `store_chunks`
(vector_service.py:131-216): the fields the loop reads. -/
structure StoreChunk where
  content_type : String
  content : String
  image_data : Option String := none
  source : String := ""
  page : Nat := 1
  filename : String := ""
  content_hash : String := ""
  sectionName : String := ""
deriving DecidableEq

def metaOf (c : StoreChunk) : StoreMetadata :=
  { source := c.source, page := c.page, filename := c.filename,
    contentHash := c.content_hash, contentType := c.content_type,
    sectionName := c.sectionName }

def docIdOf (c : StoreChunk) : String :=
  generate_document_id c.content (metaOf c)

/-- vector_service.py:147-155: the image branch is taken when the chunk is an
image with a truthy `image_data`; otherwise an empty or whitespace-only
content is skipped before any embedding call. -/
def imageBranch (c : StoreChunk) : Prop :=
  c.content_type = "image" ∧ c.image_data ≠ none ∧ c.image_data ≠ some ""

instance (c : StoreChunk) : Decidable (imageBranch c) :=
  inferInstanceAs (Decidable (c.content_type = "image" ∧ c.image_data ≠ none ∧
    c.image_data ≠ some ""))

def skipChunk (c : StoreChunk) : Prop :=
  ¬imageBranch c ∧ pyStrip c.content.data = []

instance (c : StoreChunk) : Decidable (skipChunk c) :=
  inferInstanceAs (Decidable (¬imageBranch c ∧ pyStrip c.content.data = []))

/-- One iteration of the `for i, chunk in enumerate(chunks)` loop of
`store_chunks` (vector_service.py:142-216) over the state
(stored_count, ids present in the index): skip empty text content, compute
the deterministic id, skip when the id already exists (the `index.fetch`
check at 169-176), else upsert and count.  Embedding-vector values are not
modelled: they do not influence which ids are written. -/
def storeStep (st : Nat × List String) (c : StoreChunk) : Nat × List String :=
  if skipChunk c then st
  else
    let id := docIdOf c
    if id ∈ st.2 then st else (st.1 + 1, st.2 ++ [id])

/-- `store_chunks` (vector_service.py:131-219): returns the stored count and
the index contents after the run. -/
def storeRun (index : List String) (chunks : List StoreChunk) :
    Nat × List String :=
  chunks.foldl storeStep (0, index)

/- ------------------------------------------------------------ -/
/- C5 proofs                                                    -/
/- ------------------------------------------------------------ -/

theorem storeStep_mono {st : Nat × List String} {c : StoreChunk} {x : String}
    (h : x ∈ st.2) : x ∈ (storeStep st c).2 := by
  unfold storeStep
  split
  · exact h
  · dsimp only
    split
    · exact h
    · exact List.mem_append_left _ h

theorem storeFold_mono : ∀ (cs : List StoreChunk) (st : Nat × List String)
    (x : String), x ∈ st.2 → x ∈ (cs.foldl storeStep st).2 := by
  intro cs
  induction cs with
  | nil => intro st x h; exact h
  | cons c rest ih => intro st x h; exact ih _ x (storeStep_mono h)

theorem storeFold_processed : ∀ (cs : List StoreChunk)
    (st : Nat × List String) (c : StoreChunk), c ∈ cs → ¬skipChunk c →
    docIdOf c ∈ (cs.foldl storeStep st).2 := by
  intro cs
  induction cs with
  | nil => intro st c hc; exact absurd hc (by simp)
  | cons c0 rest ih =>
    intro st c hc hskip
    rw [List.foldl_cons]
    rcases List.mem_cons.mp hc with he | hm
    · subst he
      refine storeFold_mono rest _ _ ?_
      unfold storeStep
      rw [if_neg hskip]
      dsimp only
      split
      · assumption
      · exact List.mem_append_right _ (List.mem_singleton.mpr rfl)
    · exact ih _ c hm hskip

theorem storeFold_no_new : ∀ (cs : List StoreChunk) (n : Nat)
    (idx : List String), (∀ c ∈ cs, ¬skipChunk c → docIdOf c ∈ idx) →
    cs.foldl storeStep (n, idx) = (n, idx) := by
  intro cs
  induction cs with
  | nil => intro n idx _; rfl
  | cons c0 rest ih =>
    intro n idx hall
    rw [List.foldl_cons]
    have hstep : storeStep (n, idx) c0 = (n, idx) := by
      unfold storeStep
      by_cases hs : skipChunk c0
      · rw [if_pos hs]
      · rw [if_neg hs]
        dsimp only
        rw [if_pos (hall c0 (List.mem_cons_self c0 rest) hs)]
    rw [hstep]
    exact ih n idx fun c hc => hall c (List.mem_cons_of_mem _ hc)

/-- Claim C5 (amended).  The persisted embedding-record id is a pure function
of (contentHash, page, section, first 256 characters of the content): any two
chunks agreeing on those inputs receive the same id — the claimed inputs must
include the document `contentHash`, and coordinates never reach the hash
because the metadata built in `store_chunks` has no `coordinates` key.
Re-processing the same chunk list performs zero net-new vector index writes:
existing ids are detected and skipped before upserting. -/
theorem doc_id_pure_and_dedup :
    (∀ (c₁ c₂ : String) (m₁ m₂ : StoreMetadata),
      m₁.contentHash = m₂.contentHash → m₁.page = m₂.page →
      m₁.sectionName = m₂.sectionName →
      c₁.data.take 256 = c₂.data.take 256 →
      generate_document_id c₁ m₁ = generate_document_id c₂ m₂) ∧
    (∀ (index : List String) (chunks : List StoreChunk),
      (storeRun (storeRun index chunks).2 chunks).1 = 0) := by
  constructor
  · intro c₁ c₂ m₁ m₂ hch hp hs hpre
    unfold generate_document_id
    rw [hch, hp, hs]
    by_cases h1 : c₁.data = []
    · have h2 : c₂.data = [] := by
        rw [h1] at hpre
        simp at hpre
        exact hpre
      rw [if_pos h1, if_pos h2]
    · have h2 : c₂.data ≠ [] := by
        intro he
        rw [he] at hpre
        simp at hpre
        exact h1 hpre
      rw [if_neg h1, if_neg h2, hpre]
  · intro index chunks
    unfold storeRun
    rw [storeFold_no_new chunks 0 _
      (fun c hc hskip => storeFold_processed chunks (0, index) c hc hskip)]

/-- Closed witness for `doc_id_pure_and_dedup`: two chunks with the same
contentHash, page, section and content but different source, filename and
content type receive the same id. -/
theorem doc_id_pure_and_dedup_witness :
    generate_document_id "xy" (StoreMetadata.mk "s1" 2 "f1" "h" "text" "") =
      generate_document_id "xy" (StoreMetadata.mk "s2" 2 "f2" "h" "image" "") :=
  doc_id_pure_and_dedup.1 "xy" "xy" (StoreMetadata.mk "s1" 2 "f1" "h" "text" "")
    (StoreMetadata.mk "s2" 2 "f2" "h" "image" "") rfl rfl rfl rfl

set_option maxRecDepth 4000 in
/-- Counterexample to claim C5 as stated: the id is not a pure function of
(content prefix, page, section, coordinates).  Two chunks with identical
content "hello", page 1, empty section and no coordinates receive different
ids when their metadata `contentHash` differs ("aaa" vs "bbb"). -/
theorem doc_id_depends_contentHash :
    generate_document_id "hello" (StoreMetadata.mk "" 1 "" "aaa" "text" "") =
      "c04736fd3c8a148f8374844a2bde2d80" ∧
    generate_document_id "hello" (StoreMetadata.mk "" 1 "" "bbb" "text" "") =
      "1abf712cd01a037e80dc3d841b004a1a" ∧
    generate_document_id "hello" (StoreMetadata.mk "" 1 "" "aaa" "text" "") ≠
      generate_document_id "hello" (StoreMetadata.mk "" 1 "" "bbb" "text" "") := by
  refine ⟨by decide, by decide, by decide⟩

/- ============================================================ -/
/- Job worker: update_job_status (db_worker.py:64-119)          -/
/- ============================================================ -/

/-- Python truthiness of an optional string (`if message:` at
db_worker.py:80). -/
def truthyS : Option String → Bool
  | some s => s ≠ ""
  | none => false

/-- The `update_fields` list `update_job_status` assembles
(db_worker.py:73-101), in source order: the base fields, the optional fields
when their arguments are truthy / not None, and `"completedAt" = NOW()`
exactly when the status written is completed or failed. -/
def update_fields (status : String) (message error_message : Option String)
    (chunks_count total_pages processing_time_ms : Option Nat) : List String :=
  let fs := ["status = %s", "progress = %s", "\"updatedAt\" = NOW()"]
  let fs := if truthyS message then fs ++ ["message = %s"] else fs
  let fs := if truthyS error_message then fs ++ ["\"errorMessage\" = %s"] else fs
  let fs := if chunks_count.isSome then fs ++ ["\"chunksCount\" = %s"] else fs
  let fs := if total_pages.isSome then fs ++ ["\"totalPages\" = %s"] else fs
  let fs := if processing_time_ms.isSome then fs ++ ["\"processingTimeMs\" = %s"] else fs
  if status = "completed" ∨ status = "failed" then
    fs ++ ["\"completedAt\" = NOW()"]
  else fs

/-- The SET clauses of the atomic claim statement in `get_next_job`
(db_worker.py:36-51): it writes status, startedAt, updatedAt, progress and
message — never completedAt. -/
def claimSetFields : List String :=
  ["status = 'processing'", "\"startedAt\" = NOW()", "\"updatedAt\" = NOW()",
   "progress = '0'", "message = 'Starting document processing...'"]

/-- Claim C6.  In every job-row update the worker performs, `completedAt` is
written if and only if the status being written is completed or failed: the
claim operation (queued → processing) never sets it, and `update_job_status`
appends the `completedAt` assignment exactly for terminal statuses, whatever
the other arguments are. -/
theorem completedAt_iff_terminal :
    (∀ (status : String) (message error_message : Option String)
      (chunks_count total_pages processing_time_ms : Option Nat),
      ("\"completedAt\" = NOW()" ∈ update_fields status message error_message
          chunks_count total_pages processing_time_ms ↔
        (status = "completed" ∨ status = "failed"))) ∧
    "\"completedAt\" = NOW()" ∉ claimSetFields := by
  constructor
  · intro status message error_message chunks_count total_pages processing_time_ms
    unfold update_fields
    have hbase : "\"completedAt\" = NOW()" ∉
        (["status = %s", "progress = %s", "\"updatedAt\" = NOW()"] : List String) := by
      decide
    constructor
    · intro hmem
      by_contra hterm
      rw [if_neg hterm] at hmem
      revert hmem
      split <;> split <;> split <;> split <;> split <;>
        simp [List.mem_append, hbase]
    · intro hterm
      rw [if_pos hterm]
      exact List.mem_append_right _ (List.mem_singleton.mpr rfl)
  · decide

/- ============================================================ -/
/- Job worker: process_job (db_worker.py:121-270)               -/
/- ============================================================ -/

/-- One `update_job_status` call, with the arguments `process_job` passes
(db_worker.py:64-67 signature; unset optional arguments stay None and the
corresponding columns are not written). -/
structure JobUpdate where
  status : String
  progress : Nat
  message : Option String := none
  error_message : Option String := none
  chunks_count : Option Nat := none
  total_pages : Option Nat := none
  processing_time_ms : Option Nat := none
deriving DecidableEq

/-- The JSON body returned by the `process-and-embed` endpoint as
`process_job` reads it (db_worker.py:221-244): `result.get('success')`,
`result.get('error', …)`, `result.get('chunks_stored', 0)`,
`result.get('total_pages', 0)`, `result.get('processing_time_ms', 0)`. -/
structure ApiResult where
  success : Bool
  error : Option String := none
  chunks_stored : Nat := 0
  total_pages : Nat := 0
  processing_time_ms : Nat := 0
deriving DecidableEq

/-- Outcome of an awaited external step: normal completion or a raised
exception carrying `str(e)`. -/
inductive StepResult (α : Type)
  | ok (a : α)
  | err (msg : String)
deriving DecidableEq

/-- The terminal failure update (db_worker.py:255-261): status failed,
progress 0, message 'Processing failed', the exception text in
error_message — chunks_count, total_pages and processing_time_ms are not
passed, so those columns keep their previous values. -/
def failUpdate (e : String) : JobUpdate :=
  { status := "failed", progress := 0, message := some "Processing failed",
    error_message := some e }

/-- The completion update (db_worker.py:237-245): status completed, progress
100, chunks_count = the reported chunks_stored — even when it is zero. -/
def completeUpdate (r : ApiResult) : JobUpdate :=
  { status := "completed", progress := 100,
    message := some ("Successfully processed and stored " ++
      toString r.chunks_stored ++ " chunks"),
    chunks_count := some r.chunks_stored, total_pages := some r.total_pages,
    processing_time_ms := some r.processing_time_ms }

/-- The 10% update before the download (db_worker.py:137). -/
def downloadUpdate : JobUpdate :=
  { status := "processing", progress := 10, message := some "Downloading file from R2..." }

/-- The 30% update before the process-and-embed call (db_worker.py:160). -/
def processUpdate : JobUpdate :=
  { status := "processing", progress := 30, message := some "Processing document with Docling, embedding, and storing..." }

/-- The sequence of `update_job_status` calls `process_job` makes
(db_worker.py:131-261), as a function of the download outcome and the
process-and-embed call outcome: 10% before the download, 30% before the API
call, then completed on a success response, and the failure update when any
step raised or the response reported success=False (the worker re-raises it
as an exception at db_worker.py:224-227). -/
def processJobUpdates (dl : StepResult Unit) (api : StepResult ApiResult) :
    List JobUpdate :=
  match dl with
  | .err e => [downloadUpdate, failUpdate e]
  | .ok _ =>
    match api with
    | .err e => [downloadUpdate, processUpdate, failUpdate e]
    | .ok r =>
      if r.success then [downloadUpdate, processUpdate, completeUpdate r]
      else [downloadUpdate, processUpdate,
        failUpdate (r.error.getD "Unknown error processing document")]

/-- The claim-statement progress '0' write (db_worker.py:41-42) followed by
the `process_job` updates: every persisted (status, progress) write for one
job, in order. -/
def claimUpdate : JobUpdate :=
  { status := "processing", progress := 0, message := some "Starting document processing..." }

def fullJobTrace (dl : StepResult Unit) (api : StepResult ApiResult) :
    List JobUpdate :=
  claimUpdate :: processJobUpdates dl api

/- ------------------------------------------------------------ -/
/- C2 proofs                                                    -/
/- ------------------------------------------------------------ -/

/-- Claim C2 (amended).  The worker finalizes on the result's success flag
alone: a response with success=False ends the job failed (progress 0, the
reported error recorded, chunks_count left unchanged), while a response with
success=True ends the job completed with chunks_count equal to the reported
chunks_stored — including chunks_stored = 0; and across every execution path
a job reaches status completed only through a success=True response. -/
theorem worker_finalize_amended (r : ApiResult) :
    (r.success = true →
      (processJobUpdates (.ok ()) (.ok r)).getLast? = some (completeUpdate r)) ∧
    (r.success = false →
      (processJobUpdates (.ok ()) (.ok r)).getLast? =
        some (failUpdate (r.error.getD "Unknown error processing document"))) ∧
    (∀ (dl : StepResult Unit) (api : StepResult ApiResult),
      ∀ u ∈ fullJobTrace dl api, u.status = "completed" →
        ∃ r2 : ApiResult, r2.success = true ∧ u = completeUpdate r2 ∧
          api = .ok r2) := by
  refine ⟨?_, ?_, ?_⟩
  · intro hs
    unfold processJobUpdates
    dsimp only
    rw [if_pos hs]
    rfl
  · intro hs
    unfold processJobUpdates
    dsimp only
    rw [if_neg (by rw [hs]; exact Bool.false_ne_true)]
    rfl
  · intro dl api u hu hst
    cases dl with
    | err e =>
      simp [fullJobTrace, processJobUpdates] at hu
      rcases hu with h | h | h <;> rw [h] at hst <;>
        simp [claimUpdate, downloadUpdate, failUpdate] at hst
    | ok _ =>
      cases api with
      | err e =>
        simp [fullJobTrace, processJobUpdates] at hu
        rcases hu with h | h | h | h <;> rw [h] at hst <;>
          simp [claimUpdate, downloadUpdate, processUpdate, failUpdate] at hst
      | ok r2 =>
        by_cases hs : r2.success
        · refine ⟨r2, hs, ?_, rfl⟩
          simp [fullJobTrace, processJobUpdates, if_pos hs] at hu
          rcases hu with h | h | h | h <;> rw [h] at hst <;>
            first
              | simp [claimUpdate, downloadUpdate, processUpdate] at hst
              | exact h
        · simp [fullJobTrace, processJobUpdates, if_neg hs] at hu
          rcases hu with h | h | h | h <;> rw [h] at hst <;>
            simp [claimUpdate, downloadUpdate, processUpdate, failUpdate] at hst

/-- Closed witness for `worker_finalize_amended`: a success response storing
3 chunks ends the job completed with chunks_count = 3. -/
theorem worker_finalize_amended_witness :
    (processJobUpdates (.ok ()) (.ok { success := true, chunks_stored := 3 })).getLast? =
      some (completeUpdate { success := true, chunks_stored := 3 }) :=
  (worker_finalize_amended { success := true, chunks_stored := 3 }).1 rfl

/-- Counterexample to claim C2 as stated.  `store_chunks` returns 0 without
raising when the single extracted chunk's id is already in the index (all
duplicates), and a worker receiving a success=True response with
chunks_stored = 0 marks the job completed (chunks_count = some 0) — not
failed, and with no 'nothing stored' error anywhere. -/
theorem zero_stored_completed_counterexample :
    (processJobUpdates (.ok ())
        (.ok { success := true, chunks_stored := 0, total_pages := 5 })).getLast? =
      some (completeUpdate { success := true, chunks_stored := 0, total_pages := 5 }) ∧
    (completeUpdate { success := true, chunks_stored := 0, total_pages := 5 }).status =
      "completed" ∧
    (completeUpdate { success := true, chunks_stored := 0, total_pages := 5 }).chunks_count =
      some 0 ∧
    (∀ u ∈ processJobUpdates (.ok ())
        (.ok { success := true, chunks_stored := 0, total_pages := 5 }),
      u.status ≠ "failed") ∧
    (storeRun [docIdOf { content_type := "text", content := "hello" }]
        [{ content_type := "text", content := "hello" }]).1 = 0 := by
  refine ⟨rfl, rfl, rfl, by decide, ?_⟩
  unfold storeRun
  rw [List.foldl_cons, List.foldl_nil]
  unfold storeStep
  rw [if_neg (by decide : ¬skipChunk { content_type := "text", content := "hello" })]
  dsimp only
  rw [if_pos (List.mem_singleton.mpr rfl)]

/- ------------------------------------------------------------ -/
/- C7 proofs                                                    -/
/- ------------------------------------------------------------ -/

/-- Claim C7 (amended).  For every execution of one job, the persisted
progress values are monotonically increasing on the success path
(0, 10, 30, 100); on every failure path all updates before the terminal one
are monotone, but the terminal failed update always writes progress 0, a
smaller value than any milestone already persisted. -/
theorem progress_monotone_amended (dl : StepResult Unit)
    (api : StepResult ApiResult) :
    List.Chain' (fun a b => a.progress ≤ b.progress) (fullJobTrace dl api) ∨
    ∃ pre e, fullJobTrace dl api = pre ++ [failUpdate e] ∧
      List.Chain' (fun a b => a.progress ≤ b.progress) pre ∧
      (failUpdate e).progress = 0 := by
  cases dl with
  | err e =>
    right
    refine ⟨[claimUpdate, downloadUpdate], e, rfl, ?_, rfl⟩
    simp [claimUpdate, downloadUpdate]
  | ok _ =>
    cases api with
    | err e =>
      right
      refine ⟨[claimUpdate, downloadUpdate, processUpdate], e, rfl, ?_, rfl⟩
      simp [claimUpdate, downloadUpdate, processUpdate]
    | ok r =>
      by_cases hs : r.success
      · left
        unfold fullJobTrace processJobUpdates
        dsimp only
        rw [if_pos hs]
        simp [claimUpdate, downloadUpdate, processUpdate, completeUpdate]
      · right
        refine ⟨[claimUpdate, downloadUpdate, processUpdate],
          r.error.getD "Unknown error processing document", ?_, ?_, rfl⟩
        · unfold fullJobTrace processJobUpdates
          dsimp only
          rw [if_neg hs]
          rfl
        · simp [claimUpdate, downloadUpdate, processUpdate]

/-- Counterexample to claim C7 as stated.  When the process-and-embed call
raises (for example a timeout), the worker has already persisted progress 10
and 30, and the terminal failed update writes progress 0: the persisted
sequence is 0, 10, 30, 0, which is not monotonically increasing. -/
theorem progress_reset_counterexample :
    (fullJobTrace (.ok ()) (.err "ReadTimeout")).map JobUpdate.progress =
      [0, 10, 30, 0] ∧
    ¬ List.Chain' (fun a b : Nat => a ≤ b)
      ((fullJobTrace (.ok ()) (.err "ReadTimeout")).map JobUpdate.progress) := by
  refine ⟨rfl, ?_⟩
  intro h
  have h2 : List.Chain' (fun a b : Nat => a ≤ b) [0, 10, 30, 0] := h
  simp [List.chain'_cons] at h2

/- ============================================================ -/
/- Job claim: get_next_job (db_worker.py:29-62)                 -/
/- ============================================================ -/

/-- A `DocumentProcessingJob` row, as `get_next_job` reads and writes it. -/
structure Job where
  id : Nat
  status : String
  createdAt : Nat
  startedAt : Option Nat := none
  progress : Nat := 0
  message : Option String := none
deriving DecidableEq

/-- The subquery `SELECT id FROM "DocumentProcessingJob" WHERE status =
'queued' ORDER BY "createdAt" ASC LIMIT 1` (db_worker.py:44-48): a queued row
of minimal createdAt (first among ties; Postgres leaves the tie order
unspecified). -/
def oldestQueued : List Job → Option Job
  | [] => none
  | j :: rest =>
    match oldestQueued rest with
    | none => if j.status = "queued" then some j else none
    | some k =>
      if j.status = "queued" ∧ j.createdAt ≤ k.createdAt then some j else some k

/-- The SET clause of the claim UPDATE (db_worker.py:37-42). -/
def claimJob (now : Nat) (j : Job) : Job :=
  { j with status := "processing", startedAt := some now, progress := 0, message := some "Starting document processing..." }

/-- `get_next_job` (db_worker.py:29-62).  The whole
`UPDATE ... WHERE id = (SELECT ... FOR UPDATE SKIP LOCKED) RETURNING *` runs
as one committed transaction under a row lock, so concurrent executions
serialize; one call is therefore one atomic step on the shared table. -/
def claimNext (now : Nat) (jobs : List Job) : Option Job × List Job :=
  match oldestQueued jobs with
  | none => (none, jobs)
  | some j =>
    (some (claimJob now j),
     jobs.map fun k => if k.id = j.id then claimJob now k else k)

/-- N concurrent workers polling the same queue: a schedule is an arbitrary
interleaving of poll events (worker ids), each performing one atomic
`claimNext`.  Returns the (worker, claimed job id) assignments and the final
table. -/
def runSchedule : List Nat → List Job → List (Nat × Nat) × List Job
  | [], jobs => ([], jobs)
  | w :: ws, jobs =>
    match claimNext 0 jobs with
    | (none, _) => runSchedule ws jobs
    | (some j, jobs2) =>
      let r := runSchedule ws jobs2
      ((w, j.id) :: r.1, r.2)

/-- Ids of the queued rows, in table order. -/
def queuedIds (jobs : List Job) : List Nat :=
  (jobs.filter fun j => j.status == "queued").map Job.id

/- ------------------------------------------------------------ -/
/- C3 proofs                                                    -/
/- ------------------------------------------------------------ -/

theorem oldestQueued_mem : ∀ {jobs : List Job} {j : Job},
    oldestQueued jobs = some j → j ∈ jobs ∧ j.status = "queued" := by
  intro jobs
  induction jobs with
  | nil => intro j h; exact absurd h (by simp [oldestQueued])
  | cons k rest ih =>
    intro j h
    unfold oldestQueued at h
    cases hr : oldestQueued rest with
    | none =>
      rw [hr] at h
      dsimp only at h
      by_cases hk : k.status = "queued"
      · rw [if_pos hk] at h
        simp at h
        exact ⟨by rw [← h]; exact List.mem_cons_self k rest, h ▸ hk⟩
      · rw [if_neg hk] at h
        exact absurd h (by simp)
    | some m =>
      rw [hr] at h
      dsimp only at h
      by_cases hk : k.status = "queued" ∧ k.createdAt ≤ m.createdAt
      · rw [if_pos hk] at h
        simp at h
        exact ⟨by rw [← h]; exact List.mem_cons_self k rest, h ▸ hk.1⟩
      · rw [if_neg hk] at h
        simp at h
        obtain ⟨hm, hq⟩ := ih hr
        exact ⟨by rw [← h]; exact List.mem_cons_of_mem _ hm, h ▸ hq⟩

theorem oldestQueued_none : ∀ {jobs : List Job},
    oldestQueued jobs = none → ∀ j ∈ jobs, ¬j.status = "queued" := by
  intro jobs
  induction jobs with
  | nil => intro _ j h; simp at h
  | cons k rest ih =>
    intro h j hj
    unfold oldestQueued at h
    cases hr : oldestQueued rest with
    | none =>
      rw [hr] at h
      dsimp only at h
      by_cases hk : k.status = "queued"
      · rw [if_pos hk] at h; exact absurd h (by simp)
      · rw [if_neg hk] at h
        rcases List.mem_cons.mp hj with he | hm
        · rw [he]; exact hk
        · exact ih hr j hm
    | some m =>
      rw [hr] at h
      dsimp only at h
      by_cases hk : k.status = "queued" ∧ k.createdAt ≤ m.createdAt
      · rw [if_pos hk] at h; exact absurd h (by simp)
      · rw [if_neg hk] at h; exact absurd h (by simp)

theorem queuedIds_nil_of_none {jobs : List Job}
    (h : oldestQueued jobs = none) : queuedIds jobs = [] := by
  unfold queuedIds
  rw [List.filter_eq_nil_iff.mpr fun j hj => by
    simpa using oldestQueued_none h j hj]
  rfl

theorem queuedIds_cons (k : Job) (rest : List Job) :
    queuedIds (k :: rest) =
      if k.status = "queued" then k.id :: queuedIds rest else queuedIds rest := by
  unfold queuedIds
  rw [List.filter_cons]
  by_cases hk : k.status = "queued"
  · simp [hk]
  · simp [hk]

theorem claimNext_ids (now : Nat) (jobs : List Job) :
    (claimNext now jobs).2.map Job.id = jobs.map Job.id := by
  unfold claimNext
  cases h : oldestQueued jobs with
  | none => rfl
  | some j =>
    dsimp only
    rw [List.map_map]
    refine List.map_congr_left fun k _ => ?_
    by_cases hk : k.id = j.id
    · simp [hk, claimJob]
    · simp [hk]

theorem mem_queuedIds {jobs : List Job} {j : Job} (hj : j ∈ jobs)
    (hq : j.status = "queued") : j.id ∈ queuedIds jobs := by
  unfold queuedIds
  exact List.mem_map_of_mem _ (List.mem_filter.mpr ⟨hj, by simp [hq]⟩)

theorem queuedIds_update {jobs : List Job} {j : Job} (now : Nat)
    (hj : j ∈ jobs) (hq : j.status = "queued")
    (hnd : (jobs.map Job.id).Nodup) :
    queuedIds (jobs.map fun k => if k.id = j.id then claimJob now k else k) =
      (queuedIds jobs).erase j.id := by
  induction jobs with
  | nil => simp at hj
  | cons k rest ih =>
    rw [List.map_cons, List.nodup_cons] at hnd
    by_cases hk : k.id = j.id
    · have hkj : k = j := by
        rcases List.mem_cons.mp hj with he | hm
        · exact he.symm
        · exact absurd (hk ▸ List.mem_map_of_mem Job.id hm) hnd.1
      have hrest : (rest.map fun m => if m.id = j.id then claimJob now m else m) =
          rest := by
        conv_rhs => rw [← List.map_id rest]
        refine List.map_congr_left fun m hm => ?_
        rw [if_neg]
        · rfl
        · intro he
          exact hnd.1 (hk ▸ he ▸ List.mem_map_of_mem Job.id hm)
      rw [List.map_cons, if_pos hk, hrest]
      rw [queuedIds_cons, queuedIds_cons]
      rw [if_neg (by simp [claimJob]), if_pos (hkj ▸ hq)]
      rw [← hkj]
      exact (List.erase_cons_head k.id (queuedIds rest)).symm
    · have hjrest : j ∈ rest := by
        rcases List.mem_cons.mp hj with he | hm
        · exact absurd (by rw [he] : k.id = j.id) hk
        · exact hm
      have ihr := ih hjrest hnd.2
      rw [List.map_cons, if_neg hk]
      rw [queuedIds_cons, queuedIds_cons]
      by_cases hks : k.status = "queued"
      · rw [if_pos hks, if_pos hks, ihr]
        rw [List.erase_cons_tail]
        simp [hk]
      · rw [if_neg hks, if_neg hks, ihr]

theorem claimNext_none_eq {now : Nat} {jobs : List Job}
    (h : oldestQueued jobs = none) : claimNext now jobs = (none, jobs) := by
  unfold claimNext
  rw [h]

theorem claimNext_some_eq {now : Nat} {jobs : List Job} {j : Job}
    (h : oldestQueued jobs = some j) :
    claimNext now jobs = (some (claimJob now j),
      jobs.map fun k => if k.id = j.id then claimJob now k else k) := by
  unfold claimNext
  rw [h]

theorem runSchedule_cons_none {w : Nat} {ws : List Nat} {jobs : List Job}
    (h : oldestQueued jobs = none) :
    runSchedule (w :: ws) jobs = runSchedule ws jobs := by
  conv_lhs => rw [runSchedule]
  rw [claimNext_none_eq h]

theorem runSchedule_cons_some {w : Nat} {ws : List Nat} {jobs : List Job}
    {j : Job} (h : oldestQueued jobs = some j) :
    runSchedule (w :: ws) jobs =
      ((w, j.id) :: (runSchedule ws
          (jobs.map fun k => if k.id = j.id then claimJob 0 k else k)).1,
        (runSchedule ws
          (jobs.map fun k => if k.id = j.id then claimJob 0 k else k)).2) := by
  conv_lhs => rw [runSchedule]
  rw [claimNext_some_eq h]
  rfl

theorem runSchedule_perm : ∀ (ws : List Nat) (jobs : List Job),
    (jobs.map Job.id).Nodup →
    ((runSchedule ws jobs).1.map Prod.snd ++
      queuedIds (runSchedule ws jobs).2).Perm (queuedIds jobs) := by
  intro ws
  induction ws with
  | nil => intro jobs _; simp [runSchedule]
  | cons w ws ih =>
    intro jobs hnd
    cases hcl : oldestQueued jobs with
    | none =>
      rw [runSchedule_cons_none hcl]
      exact ih jobs hnd
    | some j =>
      obtain ⟨hj, hq⟩ := oldestQueued_mem hcl
      rw [runSchedule_cons_some hcl]
      dsimp only
      have hids : (jobs.map fun k => if k.id = j.id then claimJob 0 k else k).map
          Job.id = jobs.map Job.id := by
        rw [List.map_map]
        refine List.map_congr_left fun k _ => ?_
        by_cases hk : k.id = j.id <;> simp [hk, claimJob]
      have hnd2 : ((jobs.map fun k => if k.id = j.id then claimJob 0 k else k).map
          Job.id).Nodup := by rw [hids]; exact hnd
      have ihr := ih _ hnd2
      rw [queuedIds_update 0 hj hq hnd] at ihr
      rw [List.map_cons, List.cons_append]
      exact (ihr.cons j.id).trans (List.perm_cons_erase (mem_queuedIds hj hq)).symm

theorem runSchedule_drains : ∀ (ws : List Nat) (jobs : List Job),
    (jobs.map Job.id).Nodup → (queuedIds jobs).length ≤ ws.length →
    queuedIds (runSchedule ws jobs).2 = [] := by
  intro ws
  induction ws with
  | nil =>
    intro jobs _ hlen
    rw [runSchedule]
    exact List.length_eq_zero.mp (Nat.le_zero.mp hlen)
  | cons w ws ih =>
    intro jobs hnd hlen
    cases hcl : oldestQueued jobs with
    | none =>
      rw [runSchedule_cons_none hcl]
      refine ih jobs hnd ?_
      rw [queuedIds_nil_of_none hcl]
      exact Nat.zero_le _
    | some j =>
      obtain ⟨hj, hq⟩ := oldestQueued_mem hcl
      rw [runSchedule_cons_some hcl]
      dsimp only
      have hids : (jobs.map fun k => if k.id = j.id then claimJob 0 k else k).map
          Job.id = jobs.map Job.id := by
        rw [List.map_map]
        refine List.map_congr_left fun k _ => ?_
        by_cases hk : k.id = j.id <;> simp [hk, claimJob]
      refine ih _ (by rw [hids]; exact hnd) ?_
      rw [queuedIds_update 0 hj hq hnd]
      have hjin := mem_queuedIds hj hq
      rw [List.length_erase_of_mem hjin]
      have hpos : 0 < (queuedIds jobs).length :=
        List.length_pos.mpr (List.ne_nil_of_mem hjin)
      rw [List.length_cons] at hlen
      omega

/-- Claim C3.  Under any number of concurrent worker instances polling the
same queue (modelled as an arbitrary interleaving of atomic `get_next_job`
transactions — the SQL claim runs under a row lock with SKIP LOCKED, so the
storage layer serializes them), starting from M queued jobs with distinct
ids: no job id is ever claimed twice (each claimed job belongs to exactly one
worker), and once the schedule contains at least M poll events the multiset
of claimed job ids is exactly the M queued ids — every job claimed exactly
once, total claims = M. -/
theorem job_claim_exclusive (schedule : List Nat) (jobs : List Job)
    (hq : ∀ j ∈ jobs, j.status = "queued")
    (hnd : (jobs.map Job.id).Nodup) :
    ((runSchedule schedule jobs).1.map Prod.snd).Nodup ∧
    (jobs.length ≤ schedule.length →
      ((runSchedule schedule jobs).1.map Prod.snd).Perm (jobs.map Job.id)) := by
  have hqids : queuedIds jobs = jobs.map Job.id := by
    unfold queuedIds
    rw [List.filter_eq_self.mpr fun j hj => by simp [hq j hj]]
  have hperm := runSchedule_perm schedule jobs hnd
  constructor
  · have hnodup : (queuedIds jobs).Nodup := by rw [hqids]; exact hnd
    exact List.Nodup.of_append_left (hperm.nodup_iff.mpr hnodup)
  · intro hlen
    have hdrain := runSchedule_drains schedule jobs hnd
      (by rw [hqids, List.length_map]; exact hlen)
    rw [hdrain, List.append_nil, hqids] at hperm
    exact hperm

/-- Closed witness for `job_claim_exclusive`: two queued jobs (ids 1 and 2,
created at times 5 and 3) and two workers polling. -/
theorem job_claim_exclusive_witness :
    ((runSchedule [7, 8] [Job.mk 1 "queued" 5 none 0 none,
        Job.mk 2 "queued" 3 none 0 none]).1.map Prod.snd).Nodup ∧
    ([Job.mk 1 "queued" 5 none 0 none, Job.mk 2 "queued" 3 none 0 none].length ≤
        ([7, 8] : List Nat).length →
      ((runSchedule [7, 8] [Job.mk 1 "queued" 5 none 0 none,
          Job.mk 2 "queued" 3 none 0 none]).1.map Prod.snd).Perm
        ([Job.mk 1 "queued" 5 none 0 none,
          Job.mk 2 "queued" 3 none 0 none].map Job.id)) :=
  job_claim_exclusive [7, 8]
    [Job.mk 1 "queued" 5 none 0 none, Job.mk 2 "queued" 3 none 0 none]
    (by decide) (by decide)
